import Mathlib

/-!
Shallow embedding of the Technology-Signal-to-Skill inference and scoring
pipeline of the topcoder GitHub skills CLI.

Strings are modelled as lists of characters (type Str below); JavaScript
numbers are modelled as rationals (weights, scores), integers (millisecond
timestamps, rounded scores) and naturals (counts, stars, byte volumes).
Date strings of the source are represented directly by their epoch
timestamp (the source only ever reads them through new Date(x).getTime()).
All tables that the source loads from config/constants.json (alias groups,
extension maps, special-file maps, scoring weights, thresholds, evidence
limits) appear here as explicit parameters, mirroring the configuration
records of src/utils/config.ts.  Math.log10 is likewise a parameter, since
its exact values never matter to the verified statements.
-/

/-- Characters-as-list model of JavaScript strings. -/
abbrev Str := List Char

/-- Model of String.prototype.toLowerCase (the data handled by the pipeline
is ASCII, where Char.toLower agrees with JavaScript). -/
def lowerStr (s : Str) : Str := s.map Char.toLower

/-- Character-code test from src/utils/string-utils.ts (isAlphanumeric):
0-9 are codes 48-57, A-Z are 65-90, a-z are 97-122. -/
def isAlphanumeric (c : Char) : Bool :=
  (48 ≤ c.toNat && c.toNat ≤ 57) || (65 ≤ c.toNat && c.toNat ≤ 90) ||
    (97 ≤ c.toNat && c.toNat ≤ 122)

/-- Word boundary test from src/utils/string-utils.ts (isWordBoundary):
a character is a boundary iff it is not alphanumeric. -/
def isWordBoundary (c : Char) : Bool := !isAlphanumeric c

/-- The word occurs in the text starting at position k (the test performed
by String.prototype.indexOf when it reports position k). -/
def occursAt (text word : Str) (k : ℕ) : Prop :=
  k + word.length ≤ text.length ∧ List.take word.length (List.drop k text) = word

instance (text word : Str) (k : ℕ) : Decidable (occursAt text word k) := by
  unfold occursAt; infer_instance

/-- Linear scan behind String.prototype.indexOf: starting at position k,
try r successive positions, returning the first where the word occurs. -/
def strIndexOfAux (text word : Str) : ℕ → ℕ → Option ℕ
  | _, 0 => none
  | k, r + 1 =>
    if occursAt text word k then some k else strIndexOfAux text word (k + 1) r

/-- Model of text.indexOf(word, start): the start position is clamped to
the text length (so the empty word is always found, at min start length),
and the first occurrence at or after it is returned, none standing for the
JavaScript return value -1. -/
def strIndexOf (text word : Str) (start : ℕ) : Option ℕ :=
  strIndexOfAux text word (min start text.length)
    (text.length + 1 - min start text.length)

/-- Character before position k, from isWholeWordMatch in
src/utils/string-utils.ts: index > 0 ? text.charAt(index - 1) : a space. -/
def charBeforeAt (text : Str) (k : ℕ) : Char :=
  if 0 < k then text.getD (k - 1) ' ' else ' '

/-- Character after the matched word, from isWholeWordMatch in
src/utils/string-utils.ts: index + word.length < text.length ?
text.charAt(index + word.length) : a space. -/
def charAfterAt (text word : Str) (k : ℕ) : Char :=
  if k + word.length < text.length then text.getD (k + word.length) ' ' else ' '

/-- One iteration of the while loop of isWholeWordMatch
(src/utils/string-utils.ts lines 58-77): look up the next occurrence from
the current index; if none, exit with false; if its neighbours are both
word boundaries, exit with true; otherwise continue from index + 1. -/
def wwmStep (text word : Str) (i : ℕ) : Bool ⊕ ℕ :=
  match strIndexOf text word i with
  | none => Sum.inl false
  | some k =>
    if isWordBoundary (charBeforeAt text k) && isWordBoundary (charAfterAt text word k) then
      Sum.inl true
    else
      Sum.inr (k + 1)

/-- Fuelled execution of the isWholeWordMatch loop: some b means the loop
exited with b within the given number of iterations, none means the fuel
ran out first (so the source loop performs more than that many
iterations). -/
def wwmRun (text word : Str) : ℕ → ℕ → Option Bool
  | 0, _ => none
  | fuel + 1, i =>
    match wwmStep text word i with
    | Sum.inl b => some b
    | Sum.inr j => wwmRun text word fuel j

/-- Model of isWholeWordMatch (src/utils/string-utils.ts lines 58-77).  The
loop is run with fuel text.length + 1, which is proved sufficient whenever
the word is non-empty (theorem on termination below); the getD only pads
the value on inputs where the source loop would not terminate at all. -/
def isWholeWordMatch (text word : Str) : Bool :=
  (wwmRun text word (text.length + 1) 0).getD false

/-- Model of hay.includes(needle): some occurrence exists. -/
def strIncludes (hay needle : Str) : Bool := (strIndexOf hay needle 0).isSome

/-- JavaScript whitespace characters matched by the regex class backslash-s
(ASCII part: space, tab, newline, carriage return, vertical tab, form
feed). -/
def isJsSpace (c : Char) : Bool :=
  c = ' ' || c = '\t' || c = '\n' || c = '\r' || c = Char.ofNat 11 || c = Char.ofNat 12

/-- Model of s.replace(removing dots, whitespace and dashes) as used by the
normalizers in skill-matcher.ts: drop every such character. -/
def stripSeps (s : Str) : Str :=
  s.filter (fun c => !(c = '.' || isJsSpace c || c = '-'))

/-- Term normalization of areTermsAliases (src/topcoder/skill-matcher.ts):
lowercase then strip dots, whitespace and dashes. -/
def normalizeTerm (s : Str) : Str := stripSeps (lowerStr s)

/-- Order-preserving first-occurrence deduplication, the semantics of the
JavaScript spread of a Set built from a list. -/
def dedupFirst {α : Type} [DecidableEq α] (l : List α) : List α :=
  l.foldl (fun acc t => if t ∈ acc then acc else acc ++ [t]) []

/-- Stable insertion for a descending sort by a rational key: the new
element passes every strictly larger key and lands before the first
element whose key is less than or equal to its own. -/
def insertDescBy {α : Type} (key : α → ℚ) (x : α) : List α → List α
  | [] => [x]
  | b :: bs => if key x < key b then b :: insertDescBy key x bs else x :: b :: bs

/-- Stable descending sort by a rational key.  Array.prototype.sort with a
comparator of the shape (a, b) => key(b) - key(a) is required by the
ECMAScript specification to produce exactly the stable descending
reordering, which this insertion sort computes. -/
def sortDescBy {α : Type} (key : α → ℚ) : List α → List α
  | [] => []
  | x :: xs => insertDescBy key x (sortDescBy key xs)

/-- Skill entity returned by the Topcoder catalog
(src/utils/cache.ts, interface TopcoderSkill). -/
structure TopcoderSkill where
  id : Str
  name : Str
  category : Option Str
deriving DecidableEq

/-- Repository snapshot (src/utils/cache.ts, interface RepoData).  The
languages field keeps the key order of the JavaScript object; createdAt
and updatedAt are the epoch timestamps of the stored date strings. -/
structure RepoData where
  name : Str
  fullName : Str
  url : Str
  description : Option Str
  language : Option Str
  languages : List (Str × ℕ)
  topics : List Str
  stars : ℕ
  forks : ℕ
  isOwner : Bool
  createdAt : ℤ
  updatedAt : ℤ
  readme : Option Str
  rootFiles : List Str
deriving DecidableEq

/-- Commit snapshot (src/utils/cache.ts, interface CommitData); date is
the epoch timestamp of the stored date string. -/
structure CommitData where
  repo : Str
  sha : Str
  message : Str
  date : ℤ
  filesChanged : List Str
  additions : ℕ
  deletions : ℕ
deriving DecidableEq

/-- Pull request snapshot (src/utils/cache.ts, interface PullRequestData). -/
structure PullRequestData where
  repo : Str
  number : ℕ
  title : Str
  body : Option Str
  url : Str
  state : Str
  merged : Bool
  createdAt : ℤ
  isAuthor : Bool
deriving DecidableEq

/-- Starred repository snapshot (src/utils/cache.ts, interface StarredRepo). -/
structure StarredRepo where
  name : Str
  fullName : Str
  url : Str
  description : Option Str
  language : Option Str
  topics : List Str
deriving DecidableEq

/-- Collected activity corpus (src/utils/cache.ts, interface
CollectedGitHubData).  The aggregate language statistics and the profile
are omitted: no function embedded here reads them. -/
structure CollectedGitHubData where
  repos : List RepoData
  commits : List CommitData
  pullRequests : List PullRequestData
  stars : List StarredRepo
deriving DecidableEq

/-- Scoring weights (config/constants.json, scoring.weights). -/
structure ScoringWeights where
  language : ℚ
  commits : ℚ
  prs : ℚ
  projectQuality : ℚ
  recency : ℚ
deriving DecidableEq

/-- Scoring configuration (config/constants.json, scoring). -/
structure ScoringConfig where
  weights : ScoringWeights
  maxScore : ℤ
  baseScore : ℚ
  minScoreThreshold : ℚ
deriving DecidableEq

/-- Explanation thresholds (config/constants.json, explanationThresholds). -/
structure ExplanationThresholds where
  languageStrong : ℚ
  languageModerate : ℚ
  commitActive : ℚ
  prSignificant : ℚ
  projectQuality : ℚ
  recencyRecent : ℚ
  recencyOngoing : ℚ
  scoreSolid : ℚ
  scoreWorking : ℚ
deriving DecidableEq

/-- Evidence limits (config/constants.json, evidence). -/
structure EvidenceLimits where
  maxPerSkill : ℕ
  repoLimit : ℕ
  prLimit : ℕ
  commitLimit : ℕ
  starLimit : ℕ
deriving DecidableEq

/-- The externally loaded configuration dictionary (src/utils/config.ts,
interface ConstantsConfig), restricted to the fields the embedded
functions read. -/
structure ConstantsConfig where
  shortTermExpansions : List (Str × Str)
  languageAliases : List (Str × List Str)
  extensionToTech : List (Str × Str)
  specialFiles : List (Str × Str)
  scoring : ScoringConfig
  explanationThresholds : ExplanationThresholds
  evidence : EvidenceLimits
deriving DecidableEq

/-- Model of areTermsAliases (src/topcoder/skill-matcher.ts): two terms are
aliases when their normalized forms are equal or some configured alias
group contains both normalized forms. -/
def areTermsAliases (aliases : List (Str × List Str)) (term1 term2 : Str) : Bool :=
  let t1 := normalizeTerm term1
  let t2 := normalizeTerm term2
  t1 = t2 ||
    aliases.any (fun g =>
      let allForms := (g.1 :: g.2).map normalizeTerm
      allForms.contains t1 && allForms.contains t2)

/-- Model of getFileExtensions (src/utils/config.ts): reverse lookup of
every extension whose configured technology equals the term,
case-insensitively. -/
def getFileExtensions (cfg : ConstantsConfig) (term : Str) : List Str :=
  (cfg.extensionToTech.filter (fun p => lowerStr p.2 = lowerStr term)).map (·.1)

/-- Model of termsMatch as defined identically in src/analysis/scoring.ts
and src/analysis/evidence.ts: delegate to areTermsAliases. -/
def termsMatch (cfg : ConstantsConfig) (t1 t2 : Str) : Bool :=
  areTermsAliases cfg.languageAliases t1 t2

/-- Model of termsMatchRepo (src/analysis/scoring.ts): some skill term is
an alias of some repo term. -/
def termsMatchRepo (cfg : ConstantsConfig) (skillTerms repoTerms : List Str) : Bool :=
  skillTerms.any (fun t => repoTerms.any (fun rt => termsMatch cfg t rt))

/-- Model of getRepoTerms (src/analysis/scoring.ts): lowercased language
byte-map keys, then lowercased topics, then the lowercased primary
language when present. -/
def getRepoTerms (repo : RepoData) : List Str :=
  (repo.languages.map (fun p => lowerStr p.1)) ++ (repo.topics.map lowerStr) ++
    (match repo.language with
     | some l => [lowerStr l]
     | none => [])

/-- Single update of the weighted term table, the semantics of
techCounts.set(tech, (techCounts.get(tech) or 0) + count) on a JavaScript
Map: the first entry with the key is updated in place, a missing key is
appended at the end. -/
def increment : List (Str × ℚ) → Str → ℚ → List (Str × ℚ)
  | [], tech, count => [(tech, count)]
  | p :: ps, tech, count =>
    if p.1 = tech then (p.1, p.2 + count) :: ps else p :: increment ps tech count

/-- Weight stored for a term, the semantics of techCounts.get(tech) or 0. -/
def lookupWeight : List (Str × ℚ) → Str → ℚ
  | [], _ => 0
  | p :: ps, t => if p.1 = t then p.2 else lookupWeight ps t

/-- Run a batch of increment calls left to right. -/
def applyIncs (m : List (Str × ℚ)) (ops : List (Str × ℚ)) : List (Str × ℚ) :=
  ops.foldl (fun acc p => increment acc p.1 p.2) m

/-- Model of extractTechnologiesFromRootFiles (src/github/scraper.ts):
for each root file, every special-file pattern whose lowercased name
equals or is contained in the lowercased file name contributes its
technology; the reached list is deduplicated through a Set. -/
def extractTechnologiesFromRootFiles (specialFiles : List (Str × Str)) (rootFiles : List Str) :
    List Str :=
  dedupFirst (rootFiles.flatMap (fun file =>
    let fileLower := lowerStr file
    (specialFiles.filter (fun p =>
      fileLower = lowerStr p.1 || strIncludes fileLower (lowerStr p.1))).map (·.2)))

/-- Model of findSkillsInText (src/github/scraper.ts): keep each catalog
skill name whose lowercased form occurs as a whole word in the lowercased
text. -/
def findSkillsInText (text : Str) (skillNames : List Str) : List Str :=
  let textLower := lowerStr text
  skillNames.filter (fun skillName => isWholeWordMatch textLower (lowerStr skillName))

/-- Increment operations performed for one repository by
extractAllTechnologies (src/github/scraper.ts lines 262-293), in source
order: primary language at weight 5, each language of the byte map at
weight min(bytes / 10000, 10) when positive, each topic at weight 2, each
root-file technology at weight 3, each README skill mention at weight 1
(the README scan runs only when a README and a non-empty skill-name list
are present). -/
def repoIncs (specialFiles : List (Str × Str)) (skillNames : Option (List Str))
    (repo : RepoData) : List (Str × ℚ) :=
  (match repo.language with
   | some l => [(l, (5 : ℚ))]
   | none => []) ++
  (repo.languages.filterMap (fun p =>
    let weight : ℕ := min (p.2 / 10000) 10
    if 0 < weight then some (p.1, (weight : ℚ)) else none)) ++
  (repo.topics.map (fun topic => (topic, (2 : ℚ)))) ++
  (if repo.rootFiles ≠ [] then
    (extractTechnologiesFromRootFiles specialFiles repo.rootFiles).map (fun t => (t, (3 : ℚ)))
   else []) ++
  (match repo.readme, skillNames with
   | some readme, some names =>
     if names ≠ [] then (findSkillsInText readme names).map (fun t => (t, (1 : ℚ))) else []
   | _, _ => [])

/-- Increment operations for one commit (weight 1 per extracted
technology); the per-commit extractor extractTechnologiesFromCommit of
src/github/commits.ts is a pure function of the commit and is taken as a
parameter. -/
def commitIncs (extractCommit : Str → List Str → List Str) (c : CommitData) :
    List (Str × ℚ) :=
  (extractCommit c.message c.filesChanged).map (fun t => (t, (1 : ℚ)))

/-- Increment operations for one pull request (weight 2 per extracted
technology); the per-PR extractor extractTechnologiesFromPR of
src/github/pull-requests.ts is a pure function of the pull request and the
skill-name list and is taken as a parameter. -/
def prIncs (extractPR : Str → Option Str → Option (List Str) → List Str)
    (skillNames : Option (List Str)) (pr : PullRequestData) : List (Str × ℚ) :=
  (extractPR pr.title pr.body skillNames).map (fun t => (t, (2 : ℚ)))

/-- Increment operations for one starred repository: its language and each
topic at weight 0.5. -/
def starIncs (star : StarredRepo) : List (Str × ℚ) :=
  (match star.language with
   | some l => [(l, (0.5 : ℚ))]
   | none => []) ++
  (star.topics.map (fun topic => (topic, (0.5 : ℚ))))

/-- Model of extractAllTechnologies (src/github/scraper.ts lines 252-320):
starting from an empty table, fold the per-repository, per-commit, per-PR
and per-star increment batches over the corpus in source order. -/
def extractAllTechnologies (specialFiles : List (Str × Str))
    (extractCommit : Str → List Str → List Str)
    (extractPR : Str → Option Str → Option (List Str) → List Str)
    (data : CollectedGitHubData) (skillNames : Option (List Str)) : List (Str × ℚ) :=
  let m := data.repos.foldl (fun m r => applyIncs m (repoIncs specialFiles skillNames r)) []
  let m := data.commits.foldl (fun m c => applyIncs m (commitIncs extractCommit c)) m
  let m := data.pullRequests.foldl (fun m pr => applyIncs m (prIncs extractPR skillNames pr)) m
  data.stars.foldl (fun m s => applyIncs m (starIncs s)) m

/-- Matched skill (src/topcoder/skill-matcher.ts, interface MatchedSkill).
The optional inferredFrom field exists on the variant consumed by the
scoring engine and is never set by the embedded matcher. -/
structure MatchedSkill where
  skill : TopcoderSkill
  matchedTerms : List Str
  rawScore : ℚ
  inferredFrom : Option (List Str) := none
deriving DecidableEq

/-- Accumulator entry of matchTechnologies, the value type of its
skillScores map (keyed by skill id). -/
structure SkillAcc where
  skill : TopcoderSkill
  score : ℚ
  terms : List Str
deriving DecidableEq

/-- Model of expandTerm (src/topcoder/skill-matcher.ts): look the
lowercased term up in the configured short-term expansions, falling back
to the term itself. -/
def expandTerm (shortTermExpansions : List (Str × Str)) (term : Str) : Str :=
  let termLower := lowerStr term
  match shortTermExpansions.find? (fun p => p.1 = termLower) with
  | some p => p.2
  | none => term

/-- Model of the private isReasonableMatch of SkillMatcher
(src/topcoder/skill-matcher.ts lines 224-255), with its early returns
rendered as a nested conditional: exact lowercased equality; the skill
name starts with the query; the query starts with the separator-stripped
skill name; the query is a whole word inside the skill name; the skill
name contains the query of length at least 3 (rejected when the skill name
is more than 4 times longer); finally equality or prefixhood of the two
separator-stripped forms. -/
def isReasonableMatch (query skillName : Str) : Bool :=
  let queryLower := lowerStr query
  let skillLower := lowerStr skillName
  if skillLower = queryLower then true
  else if queryLower.isPrefixOf skillLower then true
  else if (stripSeps skillLower).isPrefixOf queryLower then true
  else if isWholeWordMatch skillLower queryLower then true
  else if strIncludes skillLower queryLower && 3 ≤ queryLower.length then
    if queryLower.length * 4 < skillLower.length then false else true
  else
    let normalizedQuery := stripSeps queryLower
    let normalizedSkill := stripSeps skillLower
    if normalizedSkill = normalizedQuery then true
    else if normalizedQuery.isPrefixOf normalizedSkill then true
    else false

/-- Resolution of one technology term by matchTechnologies
(src/topcoder/skill-matcher.ts lines 170-184): expand the term, skip it
when shorter than 2 characters, search the catalog, take the first result
and keep it only when isReasonableMatch accepts it. -/
def resolveTerm (cfg : ConstantsConfig) (search : Str → List TopcoderSkill) (tech : Str) :
    Option TopcoderSkill :=
  let searchTerm := expandTerm cfg.shortTermExpansions tech
  if searchTerm.length < 2 then none
  else
    match search searchTerm with
    | [] => none
    | best :: _ => if isReasonableMatch searchTerm best.name then some best else none

/-- Update of the skillScores map for an accepted match
(src/topcoder/skill-matcher.ts lines 185-199): the existing entry for the
skill id gains the term weight and, when new, the raw term; a fresh id is
appended with the returned skill object, the weight and the raw term. -/
def updateAcc : List SkillAcc → TopcoderSkill → Str → ℚ → List SkillAcc
  | [], best, tech, count => [⟨best, count, [tech]⟩]
  | e :: es, best, tech, count =>
    if e.skill.id = best.id then
      { e with
        score := e.score + count,
        terms := if tech ∈ e.terms then e.terms else e.terms ++ [tech] } :: es
    else
      e :: updateAcc es best tech count

/-- Processing of a single (term, weight) pair by matchTechnologies: a
term that does not resolve contributes nothing. -/
def processTerm (cfg : ConstantsConfig) (search : Str → List TopcoderSkill)
    (st : List SkillAcc) (p : Str × ℚ) : List SkillAcc :=
  match resolveTerm cfg search p.1 with
  | none => st
  | some best => updateAcc st best p.1 p.2

/-- Model of SkillMatcher.matchTechnologies (src/topcoder/skill-matcher.ts
lines 166-215): fold every (term, weight) entry of the weighted term table
through processTerm, convert the accumulator map to MatchedSkill values in
insertion order, and sort by raw score descending.  The catalog search
(searchSkillsAsync) is a parameter; a search failure is represented by the
empty result list, exactly what the call sites of
src/topcoder/skills-api.ts return on any error. -/
def matchTechnologies (cfg : ConstantsConfig) (search : Str → List TopcoderSkill)
    (techCounts : List (Str × ℚ)) : List MatchedSkill :=
  let st := techCounts.foldl (processTerm cfg search) []
  sortDescBy (fun m => m.rawScore)
    (st.map (fun e => { skill := e.skill, matchedTerms := e.terms, rawScore := e.score }))

/-- Evidence kinds (src/analysis/evidence.ts, interface Evidence). -/
inductive EvidenceType
  | repo
  | commit
  | pr
  | starred
  | topic
deriving DecidableEq

/-- One evidence item (src/analysis/evidence.ts, interface Evidence). -/
structure Evidence where
  type : EvidenceType
  title : Str
  url : Str
  detail : Option Str
deriving DecidableEq

/-- Model of fileIndicatesTechnology (src/analysis/evidence.ts): some term
and some special-file pattern exist such that the lowercased file name
equals or contains the lowercased pattern and the lowercased term is an
alias of the lowercased configured technology. -/
def fileIndicatesTechnology (cfg : ConstantsConfig) (filename : Str) (terms : List Str) :
    Bool :=
  let fileLower := lowerStr filename
  terms.any (fun term =>
    let termLower := lowerStr term
    cfg.specialFiles.any (fun p =>
      (fileLower = lowerStr p.1 || strIncludes fileLower (lowerStr p.1)) &&
        termsMatch cfg termLower (lowerStr p.2)))

/-- Model of fileMatchesSkillByExtension (src/analysis/evidence.ts): some
term has a configured extension whose lowercased form ends the lowercased
file name. -/
def fileMatchesSkillByExtension (cfg : ConstantsConfig) (filename : Str)
    (terms : List Str) : Bool :=
  let fileLower := lowerStr filename
  terms.any (fun term =>
    (getFileExtensions cfg term).any (fun ext => (lowerStr ext).isSuffixOf fileLower))

/-- Repository filter of collectRepoEvidence (src/analysis/evidence.ts
lines 90-116): language/topic alias match, or a root file indicating the
technology, or a whole-word README mention. -/
def repoEvidencePred (cfg : ConstantsConfig) (terms : List Str) (repo : RepoData) : Bool :=
  let repoTerms :=
    (match repo.language with
     | some l => [lowerStr l]
     | none => []) ++
    (repo.languages.map (fun p => lowerStr p.1)) ++ (repo.topics.map lowerStr)
  (terms.any (fun t => repoTerms.any (fun rt => termsMatch cfg t rt))) ||
  (repo.rootFiles ≠ [] &&
    repo.rootFiles.any (fun file => fileIndicatesTechnology cfg file terms)) ||
  (match repo.readme with
   | some readme =>
     terms.any (fun t => isWholeWordMatch (lowerStr readme) (lowerStr t))
   | none => false)

/-- Evidence item built for a matching repository (src/analysis/evidence.ts
lines 119-127): title is the full name, the detail lists the first three
byte-map languages when any exist. -/
def mkRepoEvidence (repo : RepoData) : Evidence :=
  let languages := List.intercalate (", ".toList) ((repo.languages.map (·.1)).take 3)
  { type := EvidenceType.repo,
    title := repo.fullName,
    url := repo.url,
    detail := if languages = [] then none else some ("Languages: ".toList ++ languages) }

/-- Model of collectRepoEvidence (src/analysis/evidence.ts lines 83-130):
filter the repositories, sort them by star count descending, truncate to
the configured repository limit, and render each. -/
def collectRepoEvidence (cfg : ConstantsConfig) (terms : List Str)
    (data : CollectedGitHubData) : List Evidence :=
  ((sortDescBy (fun r => (r.stars : ℚ))
      (data.repos.filter (repoEvidencePred cfg terms))).take
    cfg.evidence.repoLimit).map mkRepoEvidence

/-- Text-match filter of collectPREvidence: some term occurs as a whole
word in the lowercased concatenation of title, a space and the body. -/
def prEvidencePred (terms : List Str) (pr : PullRequestData) : Bool :=
  let text := lowerStr (pr.title ++ [' '] ++ pr.body.getD [])
  terms.any (fun t => isWholeWordMatch (lowerStr text) (lowerStr t))

/-- Model of collectPREvidence (src/analysis/evidence.ts lines 132-158):
text-matching pull requests, restricted to merged ones, truncated to the
configured PR limit, each rendered with its number and title. -/
def collectPREvidence (cfg : ConstantsConfig) (terms : List Str)
    (data : CollectedGitHubData) : List Evidence :=
  ((((data.pullRequests.filter (prEvidencePred terms)).filter
      (fun pr => pr.merged)).take cfg.evidence.prLimit).map (fun pr =>
    { type := EvidenceType.pr,
      title := "PR #".toList ++ (Nat.repr pr.number).toList ++ ": ".toList ++ pr.title,
      url := pr.url,
      detail := if pr.merged then some "Merged".toList else some pr.state }))

/-- Commit filter of collectCommitEvidence: a whole-word message match or
a changed file matching the skill by extension. -/
def commitEvidencePred (cfg : ConstantsConfig) (terms : List Str) (c : CommitData) : Bool :=
  (terms.any (fun t => isWholeWordMatch (lowerStr c.message) (lowerStr t))) ||
    (c.filesChanged.any (fun file => fileMatchesSkillByExtension cfg file terms))

/-- Single update of the per-repository commit counter map of
collectCommitEvidence, with the same JavaScript Map semantics as
increment. -/
def incrementNat : List (Str × ℕ) → Str → List (Str × ℕ)
  | [], repo => [(repo, 1)]
  | p :: ps, repo =>
    if p.1 = repo then (p.1, p.2 + 1) :: ps else p :: incrementNat ps repo

/-- Model of collectCommitEvidence (src/analysis/evidence.ts lines
160-201): count matching commits per owning repository, sort the counter
entries by count descending, truncate to the configured commit limit, and
render each entry whose repository record is found. -/
def collectCommitEvidence (cfg : ConstantsConfig) (terms : List Str)
    (data : CollectedGitHubData) : List Evidence :=
  let counts := data.commits.foldl (fun m c =>
    if commitEvidencePred cfg terms c then incrementNat m c.repo else m) []
  let sortedRepos := (sortDescBy (fun p => ((p.2 : ℕ) : ℚ)) counts).take cfg.evidence.commitLimit
  sortedRepos.filterMap (fun p =>
    (data.repos.find? (fun r => r.fullName = p.1)).map (fun repo =>
      { type := EvidenceType.commit,
        title := (Nat.repr p.2).toList ++ " commits in ".toList ++ p.1,
        url := repo.url ++ "/commits".toList,
        detail := some "Active contributor".toList }))

/-- Star filter of collectStarEvidence: some term is an alias of the
starred repository language or of one of its topics. -/
def starEvidencePred (cfg : ConstantsConfig) (terms : List Str) (star : StarredRepo) : Bool :=
  let starTerms :=
    (match star.language with
     | some l => [lowerStr l]
     | none => []) ++ (star.topics.map lowerStr)
  terms.any (fun t => starTerms.any (fun st => termsMatch cfg t st))

/-- Model of collectStarEvidence (src/analysis/evidence.ts lines 203-231):
matching starred repositories, truncated to the configured star limit,
each rendered with the first 50 description characters when the
description is present and non-empty. -/
def collectStarEvidence (cfg : ConstantsConfig) (terms : List Str)
    (data : CollectedGitHubData) : List Evidence :=
  ((data.stars.filter (starEvidencePred cfg terms)).take cfg.evidence.starLimit).map
    (fun star =>
      { type := EvidenceType.starred,
        title := "Starred: ".toList ++ star.fullName,
        url := star.url,
        detail :=
          match star.description with
          | some d => if d = [] then none else some (d.take 50)
          | none => none })

/-- Model of collectEvidence (src/analysis/evidence.ts lines 59-81):
concatenate the repository, pull-request, commit and star sub-lists in
that priority order and truncate to the explicit cap when one is passed,
otherwise to the configured maxPerSkill. -/
def collectEvidence (cfg : ConstantsConfig) (terms : List Str)
    (data : CollectedGitHubData) (maxEvidence : Option ℕ) : List Evidence :=
  (collectRepoEvidence cfg terms data ++ collectPREvidence cfg terms data ++
    collectCommitEvidence cfg terms data ++ collectStarEvidence cfg terms data).take
    (maxEvidence.getD cfg.evidence.maxPerSkill)

/-- Component breakdown (src/analysis/scoring.ts, interface
ScoreComponents). -/
structure ScoreComponents where
  languageScore : ℚ
  commitScore : ℚ
  prScore : ℚ
  projectQualityScore : ℚ
  recencyScore : ℚ
deriving DecidableEq

/-- Final scored skill (src/analysis/scoring.ts, interface ScoredSkill). -/
structure ScoredSkill where
  skill : TopcoderSkill
  score : ℤ
  components : ScoreComponents
  evidence : List Evidence
  explanation : Str
  inferredFrom : Option (List Str) := none
deriving DecidableEq

/-- Model of the private fileMatchesSkill of ScoringEngine
(src/analysis/scoring.ts): some term has a configured extension ending the
lowercased file name, or occurs as a whole word inside it. -/
def fileMatchesSkill (cfg : ConstantsConfig) (filename : Str) (terms : List Str) : Bool :=
  let fileLower := lowerStr filename
  terms.any (fun term =>
    ((getFileExtensions cfg term).any (fun ext => ext.isSuffixOf fileLower)) ||
      isWholeWordMatch fileLower term)

/-- Model of calculateLanguageScore (src/analysis/scoring.ts lines
652-700): a rank score from the raw score against the maximum, a repo
coverage bonus capped at 30, a byte share bonus capped at 20 and a fifth
of the relative importance, rounded and capped at 100. -/
def calculateLanguageScore (cfg : ConstantsConfig) (terms : List Str)
    (data : CollectedGitHubData) (maxRawScore totalRawScore rawScore : ℚ) : ℚ :=
  let relativeImportance : ℚ :=
    if 0 < totalRawScore then rawScore / totalRawScore * 100 else 0
  let rankScore : ℚ := rawScore / maxRawScore * 80
  let matchingReposList :=
    data.repos.filter (fun r => termsMatchRepo cfg terms (getRepoTerms r))
  let matchingRepos : ℕ := matchingReposList.length
  let totalLanguageBytes : ℕ :=
    (matchingReposList.map (fun r => (r.languages.map (·.2)).sum)).sum
  let skillLanguageBytes : ℕ :=
    (matchingReposList.map (fun r =>
      ((r.languages.filter (fun p =>
        terms.any (fun t => termsMatch cfg t (lowerStr p.1)))).map (·.2)).sum)).sum
  let repoCoverage : ℚ :=
    if 0 < data.repos.length then (matchingRepos : ℚ) / (data.repos.length : ℚ) * 100 else 0
  let repoBonus : ℚ := min (repoCoverage * 0.5) 30
  let bytePercentage : ℚ :=
    if 0 < totalLanguageBytes then
      (skillLanguageBytes : ℚ) / (totalLanguageBytes : ℚ) * 100
    else 0
  let byteBonus : ℚ := min (bytePercentage * 0.3) 20
  let combinedScore := rankScore + repoBonus + byteBonus + relativeImportance * 0.2
  ((min (round combinedScore) 100 : ℤ) : ℚ)

/-- A commit has a changed file matching the skill (the hasMatchingFile
test of calculateCommitScore). -/
def commitFileMatches (cfg : ConstantsConfig) (terms : List Str) (c : CommitData) : Bool :=
  (c.filesChanged.map lowerStr).any (fun file => fileMatchesSkill cfg file terms)

/-- A commit message contains some term as a whole word (the
hasMatchingMessage test of calculateCommitScore). -/
def commitMessageMatches (terms : List Str) (c : CommitData) : Bool :=
  terms.any (fun t => isWholeWordMatch (lowerStr c.message) t)

/-- Model of calculateCommitScore (src/analysis/scoring.ts lines 703-735).
The loop counts strongMatches, the commits with a matching changed file,
and relevantCommits, those with a matching file or a whole-word message
match. -/
def calculateCommitScore (cfg : ConstantsConfig) (terms : List Str)
    (data : CollectedGitHubData) : ℚ :=
  if data.commits.length = 0 then 0
  else
    let strongMatches : ℕ := data.commits.countP (commitFileMatches cfg terms)
    let relevantCommits : ℕ :=
      data.commits.countP (fun c =>
        commitFileMatches cfg terms c || commitMessageMatches terms c)
    if relevantCommits = 0 then 0
    else
      let fileMatchScore : ℚ := (strongMatches : ℚ) / (data.commits.length : ℚ) * 60
      let messageMatchScore : ℚ :=
        ((relevantCommits : ℚ) - (strongMatches : ℚ)) / (data.commits.length : ℚ) * 30
      let volumeBonus : ℚ := min ((relevantCommits : ℚ) / 5) 20
      ((min (round (fileMatchScore + messageMatchScore + volumeBonus)) 100 : ℤ) : ℚ)

/-- Whole-word text match of one pull request against the term list, as
written inline in calculatePRScore. -/
def prTextMatches (terms : List Str) (pr : PullRequestData) : Bool :=
  let textLower := lowerStr (pr.title ++ [' '] ++ pr.body.getD [])
  terms.any (fun t => isWholeWordMatch textLower t)

/-- Model of calculatePRScore (src/analysis/scoring.ts lines 738-763): a
fixed 20 when there are no pull requests or none matches; otherwise a
relevance share out of 50, a merge rate out of 40 and a volume bonus
capped at 10, rounded and capped at 100. -/
def calculatePRScore (terms : List Str) (data : CollectedGitHubData) : ℚ :=
  if data.pullRequests.length = 0 then 20
  else
    let relevantPRs : ℕ := data.pullRequests.countP (prTextMatches terms)
    let mergedPRs : ℕ :=
      data.pullRequests.countP (fun pr => prTextMatches terms pr && pr.merged)
    if relevantPRs = 0 then 20
    else
      let relevanceScore : ℚ := (relevantPRs : ℚ) / (data.pullRequests.length : ℚ) * 50
      let mergeRate : ℚ :=
        if 0 < relevantPRs then (mergedPRs : ℚ) / (relevantPRs : ℚ) * 40 else 0
      let volumeBonus : ℚ := min ((relevantPRs : ℚ) * 2) 10
      ((min (round (relevanceScore + mergeRate + volumeBonus)) 100 : ℤ) : ℚ)

/-- Model of calculateProjectQualityScore (src/analysis/scoring.ts lines
766-792): repo-count, owned-repo and log-scaled star and fork bonuses over
the alias-matching repositories, rounded and capped at 100.  log10 is the
parameter standing for Math.log10. -/
def calculateProjectQualityScore (cfg : ConstantsConfig) (log10 : ℕ → ℚ)
    (terms : List Str) (data : CollectedGitHubData) : ℚ :=
  let matching := data.repos.filter (fun r => termsMatchRepo cfg terms (getRepoTerms r))
  let relevantRepos : ℕ := matching.length
  let totalStars : ℕ := (matching.map (·.stars)).sum
  let totalForks : ℕ := (matching.map (·.forks)).sum
  let ownedRepos : ℕ := matching.countP (·.isOwner)
  if relevantRepos = 0 then 0
  else
    let hasReposScore : ℚ := min ((relevantRepos : ℚ) * 10) 40
    let ownedRepoScore : ℚ := min ((ownedRepos : ℚ) * 5) 20
    let starScore : ℚ := min (log10 (totalStars + 1) * 15) 25
    let forkScore : ℚ := min (log10 (totalForks + 1) * 10) 15
    ((min (round (hasReposScore + ownedRepoScore + starScore + forkScore)) 100 : ℤ) : ℚ)

/-- Model of calculateRecencyScore (src/analysis/scoring.ts lines
795-840): bucket the alias-matching repositories by last update into the
last six months, the last year and the last two years, add a bonus for
commits of the last year whose changed files match the skill, round and
cap at 100.  now stands for Date.now(). -/
def calculateRecencyScore (cfg : ConstantsConfig) (now : ℤ) (terms : List Str)
    (data : CollectedGitHubData) : ℚ :=
  let sixMonthsAgo : ℤ := now - 180 * 24 * 60 * 60 * 1000
  let oneYearAgo : ℤ := now - 365 * 24 * 60 * 60 * 1000
  let twoYearsAgo : ℤ := now - 730 * 24 * 60 * 60 * 1000
  let matching := data.repos.filter (fun r => termsMatchRepo cfg terms (getRepoTerms r))
  let matchingRepos : ℕ := matching.length
  let veryRecentRepos : ℕ := matching.countP (fun r => sixMonthsAgo < r.updatedAt)
  let recentRepos : ℕ :=
    matching.countP (fun r => !(sixMonthsAgo < r.updatedAt) && oneYearAgo < r.updatedAt)
  let olderRepos : ℕ :=
    matching.countP (fun r =>
      !(sixMonthsAgo < r.updatedAt) && !(oneYearAgo < r.updatedAt) &&
        twoYearsAgo < r.updatedAt)
  if matchingRepos = 0 then 0
  else
    let recentCommits : ℕ := data.commits.countP (fun c =>
      oneYearAgo < c.date && commitFileMatches cfg terms c)
    let veryRecentScore : ℚ := min ((veryRecentRepos : ℚ) * 15) 50
    let recentScore : ℚ := min ((recentRepos : ℚ) * 8) 25
    let olderScore : ℚ := min ((olderRepos : ℚ) * 3) 10
    let commitBonus : ℚ := min ((recentCommits : ℚ) / 2) 15
    ((min (round (veryRecentScore + recentScore + olderScore + commitBonus)) 100 : ℤ) : ℚ)

/-- Model of the private generateExplanation of ScoringEngine
(src/analysis/scoring.ts lines 843-894): clauses pushed against the
configured thresholds, joined with commas and capitalized, with banded
fallback sentences when no clause qualifies. -/
def generateExplanation (cfg : ConstantsConfig) (skillName : Str)
    (components : ScoreComponents) (score : ℤ) : Str :=
  let T := cfg.explanationThresholds
  let parts : List Str :=
    (if T.languageStrong ≤ components.languageScore then
      ["Strong ".toList ++ skillName ++ " usage in repositories".toList]
     else if T.languageModerate ≤ components.languageScore then
      ["Moderate ".toList ++ skillName ++ " experience".toList]
     else if 0 < components.languageScore then
      ["Some ".toList ++ skillName ++ " usage detected".toList]
     else []) ++
    (if T.commitActive ≤ components.commitScore then ["active commit history".toList]
     else []) ++
    (if T.prSignificant ≤ components.prScore then ["significant PR contributions".toList]
     else []) ++
    (if T.projectQuality ≤ components.projectQualityScore then ["quality projects".toList]
     else []) ++
    (if T.recencyRecent ≤ components.recencyScore then ["recent activity".toList]
     else if T.recencyOngoing ≤ components.recencyScore then ["ongoing usage".toList]
     else [])
  if parts = [] then
    if T.scoreSolid ≤ (score : ℚ) then
      "Solid experience with ".toList ++ skillName ++ " based on repository analysis".toList
    else if T.scoreWorking ≤ (score : ℚ) then
      "Working knowledge of ".toList ++ skillName ++ " detected".toList
    else "Basic exposure to ".toList ++ skillName ++ " detected".toList
  else
    match String.toList (String.mk (List.intercalate ", ".toList parts)) with
    | [] => []
    | c :: cs => Char.toUpper c :: cs

/-- The weighted component sum of scoreSkill (src/analysis/scoring.ts
lines 603-608). -/
def weightedScoreOf (w : ScoringWeights) (components : ScoreComponents) : ℚ :=
  components.languageScore * w.language + components.commitScore * w.commits +
    components.prScore * w.prs + components.projectQualityScore * w.projectQuality +
    components.recencyScore * w.recency

/-- Model of the private scoreSkill of ScoringEngine
(src/analysis/scoring.ts lines 569-627): lowercase the matched terms,
prepend the lowercased skill name, deduplicate, compute the five
components, combine them with the configured weights on top of the base
score, round, cap at the configured maximum, and attach evidence and
explanation. -/
def scoreSkill (cfg : ConstantsConfig) (log10 : ℕ → ℚ) (now : ℤ) (m : MatchedSkill)
    (data : CollectedGitHubData) (maxRawScore totalRawScore : ℚ) : ScoredSkill :=
  let skillTerms := m.matchedTerms.map lowerStr
  let skillName := lowerStr m.skill.name
  let allTerms := dedupFirst (skillName :: skillTerms)
  let languageScore :=
    calculateLanguageScore cfg allTerms data maxRawScore totalRawScore m.rawScore
  let commitScore := calculateCommitScore cfg allTerms data
  let prScore := calculatePRScore allTerms data
  let projectQualityScore := calculateProjectQualityScore cfg log10 allTerms data
  let recencyScore := calculateRecencyScore cfg now allTerms data
  let components : ScoreComponents :=
    { languageScore := languageScore,
      commitScore := commitScore,
      prScore := prScore,
      projectQualityScore := projectQualityScore,
      recencyScore := recencyScore }
  let weightedScore := weightedScoreOf cfg.scoring.weights components
  let score : ℤ :=
    min (round (cfg.scoring.baseScore + weightedScore * ((100 - cfg.scoring.baseScore) / 100)))
      cfg.scoring.maxScore
  { skill := m.skill,
    score := score,
    components := components,
    evidence := collectEvidence cfg allTerms data none,
    explanation := generateExplanation cfg m.skill.name components score,
    inferredFrom := m.inferredFrom }

/-- Model of ScoringEngine.scoreSkills (src/analysis/scoring.ts lines
555-566): the total raw score, the maximum raw score floored at 1 (the
JavaScript Math.max over all raw scores and 1), then scoreSkill on every
matched skill. -/
def scoreSkills (cfg : ConstantsConfig) (log10 : ℕ → ℚ) (now : ℤ)
    (matchedSkills : List MatchedSkill) (data : CollectedGitHubData) : List ScoredSkill :=
  let totalRawScore := (matchedSkills.map (·.rawScore)).sum
  let maxRawScore := (matchedSkills.map (·.rawScore)).foldl max 1
  matchedSkills.map (fun m => scoreSkill cfg log10 now m data maxRawScore totalRawScore)

/-- Model of getTopScoredSkills (src/analysis/scoring.ts lines 898-906):
drop the skills below the configured minimum threshold, sort by score
descending and truncate to the limit. -/
def getTopScoredSkills (cfg : ConstantsConfig) (skills : List ScoredSkill) (limit : ℕ) :
    List ScoredSkill :=
  (sortDescBy (fun s => ((s.score : ℤ) : ℚ))
    (skills.filter (fun s => cfg.scoring.minScoreThreshold ≤ ((s.score : ℤ) : ℚ)))).take
    limit

/-- A whole-word occurrence: the word occurs at position k and both
neighbouring characters (or the padded boundary spaces) are word
boundaries.  This is the acceptance condition tested inside the loop of
isWholeWordMatch. -/
def ValidWordOccurrence (text word : Str) (k : ℕ) : Prop :=
  occursAt text word k ∧ isWordBoundary (charBeforeAt text k) = true ∧
    isWordBoundary (charAfterAt text word k) = true

/-- Priority rank of an evidence kind, in the fixed order used by
collectEvidence: repositories, then pull requests, then commit activity,
then stars. -/
def evidenceRank : EvidenceType → ℕ
  | EvidenceType.repo => 0
  | EvidenceType.pr => 1
  | EvidenceType.commit => 2
  | EvidenceType.starred => 3
  | EvidenceType.topic => 4

/-- The catalog skill id a technology term resolves to, if any. -/
def resolvedId (cfg : ConstantsConfig) (search : Str → List TopcoderSkill)
    (tech : Str) : Option Str :=
  (resolveTerm cfg search tech).map (fun sk => sk.id)

/-- The (term, weight) entries of a weighted term table that resolve to a
given skill id. -/
def contributions (cfg : ConstantsConfig) (search : Str → List TopcoderSkill)
    (tc : List (Str × ℚ)) (id : Str) : List (Str × ℚ) :=
  tc.filter (fun p => resolvedId cfg search p.1 = some id)

/-- Invariant tying the skillScores accumulator of matchTechnologies to
the processed prefix of the weighted term table: for every skill id the
accumulator holds no entry and no processed term resolves to the id, or
exactly one entry whose score is the sum of the weights of the
contributing terms and whose term list is their first-occurrence
deduplication. -/
def AccInv (cfg : ConstantsConfig) (search : Str → List TopcoderSkill)
    (processed : List (Str × ℚ)) (st : List SkillAcc) : Prop :=
  ∀ id : Str,
    (st.filter (fun e => decide (e.skill.id = id)) = [] ∧
      contributions cfg search processed id = []) ∨
    (∃ sk : TopcoderSkill, sk.id = id ∧
      st.filter (fun e => decide (e.skill.id = id)) =
        [⟨sk, ((contributions cfg search processed id).map (fun p => p.2)).sum,
          dedupFirst ((contributions cfg search processed id).map (fun p => p.1))⟩] ∧
      contributions cfg search processed id ≠ [])

/-- Lexicographic order on character lists, used to state the claimed
ascending-id tie-break. -/
def strLtB : Str → Str → Bool
  | [], [] => false
  | [], _ :: _ => true
  | _ :: _, [] => false
  | a :: as, b :: bs => decide (a < b) || (decide (a = b) && strLtB as bs)

/-- The ordering claimed for the output of matchTechnologies: descending
by raw score with equal raw scores ordered by catalog id ascending. -/
def claimedTieOrder (l : List MatchedSkill) : Prop :=
  l.Pairwise (fun x y => y.rawScore < x.rawScore ∨
    (x.rawScore = y.rawScore ∧
      (strLtB x.skill.id y.skill.id = true ∨ x.skill.id = y.skill.id)))

/-- Concrete explanation thresholds for witnesses. -/
def sampleThresholds : ExplanationThresholds :=
  ⟨70, 40, 50, 50, 50, 70, 40, 60, 40⟩

/-- Concrete configuration for witnesses, with the scoring values
documented for config/constants.json (weights 0.40/0.20/0.10/0.10/0.20,
baseScore 15, maxScore 100, minScoreThreshold 15) and empty alias
tables. -/
def sampleConfig : ConstantsConfig :=
  { shortTermExpansions := [],
    languageAliases := [],
    extensionToTech := [],
    specialFiles := [],
    scoring := ⟨⟨0.40, 0.20, 0.10, 0.10, 0.20⟩, 100, 15, 15⟩,
    explanationThresholds := sampleThresholds,
    evidence := ⟨10, 5, 3, 3, 2⟩ }

/-- Concrete catalog skill with the lexicographically smaller id. -/
def skillAlpha : TopcoderSkill := ⟨"a1".toList, "alpha".toList, none⟩

/-- Concrete catalog skill with the lexicographically larger id. -/
def skillBravo : TopcoderSkill := ⟨"b9".toList, "bravo".toList, none⟩

/-- Concrete catalog search for witnesses: exact hits for the two sample
skills, empty for everything else. -/
def searchCex : Str → List TopcoderSkill := fun t =>
  if t = "bravo".toList then [skillBravo]
  else if t = "alpha".toList then [skillAlpha] else []

/-- Concrete weighted term table whose two terms carry equal weights and
resolve to distinct skills, the larger id first. -/
def techCountsCex : List (Str × ℚ) := [("bravo".toList, 3), ("alpha".toList, 3)]

/-- Concrete starred repository tagged ruby/web. -/
def starX : StarredRepo :=
  { name := "x".toList, fullName := "u/x".toList, url := "ux".toList,
    description := none, language := some "ruby".toList, topics := ["web".toList] }

/-- Concrete starred repository tagged go. -/
def starY : StarredRepo :=
  { name := "y".toList, fullName := "u/y".toList, url := "uy".toList,
    description := none, language := some "go".toList, topics := [] }

/-- Corpus holding the two sample stars in one order. -/
def corpusXY : CollectedGitHubData := ⟨[], [], [], [starX, starY]⟩

/-- The same corpus with the two stars swapped. -/
def corpusYX : CollectedGitHubData := ⟨[], [], [], [starY, starX]⟩

theorem strIndexOfAux_eq_some {text word : Str} {k r m : ℕ}
    (h : strIndexOfAux text word k r = some m) :
    k ≤ m ∧ m < k + r ∧ occursAt text word m ∧
      ∀ j, k ≤ j → j < m → ¬occursAt text word j := by
  induction r generalizing k with
  | zero => simp [strIndexOfAux] at h
  | succ r ih =>
    rw [strIndexOfAux] at h
    by_cases hk : occursAt text word k
    · rw [if_pos hk] at h
      obtain rfl : k = m := by simpa using h
      exact ⟨le_refl _, by omega, hk, fun j h1 h2 => absurd h1 (by omega)⟩
    · rw [if_neg hk] at h
      obtain ⟨h1, h2, h3, h4⟩ := ih h
      refine ⟨by omega, by omega, h3, fun j hj1 hj2 => ?_⟩
      rcases Nat.eq_or_lt_of_le hj1 with rfl | hj1
      · exact hk
      · exact h4 j hj1 hj2

theorem strIndexOfAux_eq_none {text word : Str} {k r : ℕ}
    (h : strIndexOfAux text word k r = none) :
    ∀ j, k ≤ j → j < k + r → ¬occursAt text word j := by
  induction r generalizing k with
  | zero => omega
  | succ r ih =>
    rw [strIndexOfAux] at h
    by_cases hk : occursAt text word k
    · rw [if_pos hk] at h; cases h
    · rw [if_neg hk] at h
      intro j hj1 hj2
      rcases Nat.eq_or_lt_of_le hj1 with rfl | hj1
      · exact hk
      · exact ih h j hj1 (by omega)

theorem strIndexOfAux_isSome {text word : Str} {k r m : ℕ}
    (hm : occursAt text word m) (hk : k ≤ m) (hr : m < k + r) :
    (strIndexOfAux text word k r).isSome = true := by
  induction r generalizing k with
  | zero => omega
  | succ r ih =>
    rw [strIndexOfAux]
    by_cases hk' : occursAt text word k
    · rw [if_pos hk']; rfl
    · rw [if_neg hk']
      have : k ≠ m := fun h => hk' (h ▸ hm)
      exact ih (by omega) (by omega)

theorem strIndexOf_eq_some {text word : Str} {i m : ℕ}
    (h : strIndexOf text word i = some m) :
    min i text.length ≤ m ∧ occursAt text word m ∧
      ∀ j, min i text.length ≤ j → j < m → ¬occursAt text word j := by
  obtain ⟨h1, _, h3, h4⟩ := strIndexOfAux_eq_some h
  exact ⟨h1, h3, h4⟩

theorem strIndexOf_eq_none {text word : Str} {i : ℕ}
    (h : strIndexOf text word i = none) :
    ∀ j, min i text.length ≤ j → ¬occursAt text word j := by
  intro j hj
  by_cases hjl : j < min i text.length + (text.length + 1 - min i text.length)
  · exact strIndexOfAux_eq_none h j hj hjl
  · intro hocc
    have := hocc.1
    omega

theorem strIndexOf_isSome {text word : Str} {i m : ℕ}
    (hm : occursAt text word m) (hk : i ≤ m) :
    (strIndexOf text word i).isSome = true := by
  have hml : m ≤ text.length := by have := hm.1; omega
  exact strIndexOfAux_isSome hm (by omega) (by omega)

theorem occursAt_le {text word : Str} {k : ℕ} (h : occursAt text word k) :
    k + word.length ≤ text.length := h.1


theorem wwmStep_eq_fail {text word : Str} {i : ℕ}
    (hs : strIndexOf text word i = none) : wwmStep text word i = Sum.inl false := by
  unfold wwmStep; rw [hs]

theorem wwmStep_eq_found {text word : Str} {i k : ℕ}
    (hs : strIndexOf text word i = some k) :
    wwmStep text word i =
      if (isWordBoundary (charBeforeAt text k) &&
          isWordBoundary (charAfterAt text word k)) = true then
        Sum.inl true
      else Sum.inr (k + 1) := by
  unfold wwmStep; rw [hs]

theorem wwmStep_inr {text word : Str} {i j : ℕ} (h : wwmStep text word i = Sum.inr j) :
    ∃ k, strIndexOf text word i = some k ∧ j = k + 1 ∧ occursAt text word k := by
  cases hs : strIndexOf text word i with
  | none => rw [wwmStep_eq_fail hs] at h; cases h
  | some k =>
    rw [wwmStep_eq_found hs] at h
    by_cases hb :
        (isWordBoundary (charBeforeAt text k) &&
          isWordBoundary (charAfterAt text word k)) = true
    · rw [if_pos hb] at h; cases h
    · rw [if_neg hb] at h
      obtain rfl : k + 1 = j := by simpa using h
      exact ⟨k, rfl, rfl, (strIndexOf_eq_some hs).2.1⟩

theorem wwmRun_isSome {text word : Str} (hw : word ≠ []) :
    ∀ fuel i, i ≤ text.length → text.length + 1 - i ≤ fuel →
      (wwmRun text word fuel i).isSome = true := by
  have hwl : 1 ≤ word.length := by
    cases word with
    | nil => exact absurd rfl hw
    | cons c cs => simp
  intro fuel
  induction fuel with
  | zero => intro i h1 h2; omega
  | succ n ih =>
    intro i h1 h2
    rw [wwmRun]
    cases hstep : wwmStep text word i with
    | inl b => rfl
    | inr j =>
      obtain ⟨k, hk, rfl, hocc⟩ := wwmStep_inr hstep
      have hk1 := (strIndexOf_eq_some hk).1
      have hk2 := occursAt_le hocc
      exact ih (k + 1) (by omega) (by omega)

theorem wwmRun_eq_some_true {text word : Str} {fuel i : ℕ}
    (h : wwmRun text word fuel i = some true) :
    ∃ k, ValidWordOccurrence text word k := by
  induction fuel generalizing i with
  | zero => cases h
  | succ n ih =>
    rw [wwmRun] at h
    cases hstep : wwmStep text word i with
    | inl b =>
      rw [hstep] at h
      obtain rfl : b = true := by simpa using h
      cases hs : strIndexOf text word i with
      | none => rw [wwmStep_eq_fail hs] at hstep; cases hstep
      | some k =>
        rw [wwmStep_eq_found hs] at hstep
        by_cases hb :
            (isWordBoundary (charBeforeAt text k) &&
              isWordBoundary (charAfterAt text word k)) = true
        · obtain ⟨hb1, hb2⟩ := Bool.and_eq_true_iff.mp hb
          exact ⟨k, (strIndexOf_eq_some hs).2.1, hb1, hb2⟩
        · rw [if_neg hb] at hstep; cases hstep
    | inr j =>
      rw [hstep] at h
      exact ih h

theorem wwmRun_complete {text word : Str} (hw : word ≠ []) :
    ∀ fuel i, i ≤ text.length → text.length + 1 - i ≤ fuel →
      (∃ k, i ≤ k ∧ ValidWordOccurrence text word k) →
      wwmRun text word fuel i = some true := by
  have hwl : 1 ≤ word.length := by
    cases word with
    | nil => exact absurd rfl hw
    | cons c cs => simp
  intro fuel
  induction fuel with
  | zero => intro i h1 h2 _; omega
  | succ n ih =>
    intro i h1 h2 hex
    obtain ⟨k0, hik0, hocc0, hb0, ha0⟩ := hex
    have hsome : (strIndexOf text word i).isSome = true := strIndexOf_isSome hocc0 hik0
    cases hs : strIndexOf text word i with
    | none => rw [hs] at hsome; cases hsome
    | some k =>
      obtain ⟨hk1, hk2, hk3⟩ := strIndexOf_eq_some hs
      have hmin : min i text.length = i := by omega
      have hkk0 : k ≤ k0 := by
        by_contra hlt
        exact hk3 k0 (by omega) (by omega) hocc0
      rw [wwmRun, wwmStep_eq_found hs]
      by_cases hb :
          (isWordBoundary (charBeforeAt text k) &&
            isWordBoundary (charAfterAt text word k)) = true
      · rw [if_pos hb]
      · rw [if_neg hb]
        have hkne : k ≠ k0 := by
          rintro rfl
          exact hb (by rw [hb0, ha0]; rfl)
        have hklen := occursAt_le hk2
        exact ih (k + 1) (by omega) (by omega) ⟨k0, by omega, hocc0, hb0, ha0⟩

theorem isWholeWordMatch_iff {text word : Str} (hw : word ≠ []) :
    isWholeWordMatch text word = true ↔ ∃ k, ValidWordOccurrence text word k := by
  constructor
  · intro h
    unfold isWholeWordMatch at h
    cases hr : wwmRun text word (text.length + 1) 0 with
    | none => rw [hr] at h; cases h
    | some b =>
      rw [hr] at h
      obtain rfl : b = true := by simpa using h
      exact wwmRun_eq_some_true hr
  · rintro ⟨k, hk⟩
    unfold isWholeWordMatch
    rw [wwmRun_complete hw (text.length + 1) 0 (by omega) (by omega)
      ⟨k, Nat.zero_le _, hk⟩]
    rfl

theorem wwmStep_abc_empty (i : ℕ) :
    wwmStep ("abc".toList) [] i = Sum.inr (min i 3 + 1) := by
  have h3 : List.length ("abc".toList) = 3 := by decide
  have hcase : min i 3 = 0 ∨ min i 3 = 1 ∨ min i 3 = 2 ∨ min i 3 = 3 := by omega
  unfold wwmStep strIndexOf
  rw [h3]
  rcases hcase with h | h | h | h <;> rw [h] <;> decide

theorem wwmRun_abc_empty (fuel i : ℕ) : wwmRun ("abc".toList) [] fuel i = none := by
  induction fuel generalizing i with
  | zero => rfl
  | succ n ih => rw [wwmRun, wwmStep_abc_empty]; exact ih _

/-- C6: isWholeWordMatch(text, word) returns true exactly when some
occurrence of word in text has a non-alphanumeric character (or the
string boundary) immediately before and immediately after it — all
occurrences are examined, not only the first; in particular
isWholeWordMatch("javascript", "java") is false,
isWholeWordMatch("i love java!", "java") is true and
isWholeWordMatch("java", "java") is true.  The characterization carries
the precondition that the word is non-empty, under which the source loop
terminates (see the companion termination theorem). -/
theorem isWholeWordMatch_spec :
    (∀ text word : Str, word ≠ [] →
      (isWholeWordMatch text word = true ↔ ∃ k, ValidWordOccurrence text word k)) ∧
    isWholeWordMatch "javascript".toList "java".toList = false ∧
    isWholeWordMatch ("i love java!".toList) ("java".toList) = true ∧
    isWholeWordMatch "java".toList "java".toList = true :=
  ⟨fun _ _ hw => isWholeWordMatch_iff hw, by decide, by decide, by decide⟩

/-- Witness for C6: the characterization applied to the concrete call
isWholeWordMatch("i love java!", "java"), whose word is non-empty. -/
theorem isWholeWordMatch_spec_witness :
    "java".toList ≠ ([] : Str) ∧
      (isWholeWordMatch ("i love java!".toList) ("java".toList) = true ↔
        ∃ k, ValidWordOccurrence ("i love java!".toList) ("java".toList) k) :=
  ⟨by decide, isWholeWordMatch_spec.1 _ _ (by decide)⟩

/-- C10: the occurrence-scanning loop of isWholeWordMatch terminates for
every text whenever the word is non-empty (with fuel text.length + 1 the
fuelled loop always reaches an exit), and non-emptiness is necessary: for
word = "" on text = "abc" (which ends in an alphanumeric character) the
loop exhausts every finite fuel, i.e. it never terminates. -/
theorem isWholeWordMatch_termination :
    (∀ text word : Str, word ≠ [] →
      (wwmRun text word (text.length + 1) 0).isSome = true) ∧
    (∀ fuel : ℕ, wwmRun ("abc".toList) ([] : Str) fuel 0 = none) :=
  ⟨fun text _ hw => wwmRun_isSome hw (text.length + 1) 0 (Nat.zero_le _) (by omega),
   fun fuel => wwmRun_abc_empty fuel 0⟩

/-- Witness for C10: termination applied to the concrete non-empty word
"java" on the text "i love java!". -/
theorem isWholeWordMatch_termination_witness :
    ("java".toList ≠ ([] : Str)) ∧
      (wwmRun ("i love java!".toList) ("java".toList)
        (("i love java!".toList).length + 1) 0).isSome = true :=
  ⟨by decide, isWholeWordMatch_termination.1 _ _ (by decide)⟩

theorem insertDescBy_perm {α : Type} (key : α → ℚ) (x : α) (l : List α) :
    List.Perm (insertDescBy key x l) (x :: l) := by
  induction l with
  | nil => exact List.Perm.refl _
  | cons b bs ih =>
    rw [insertDescBy]
    by_cases h : key x < key b
    · rw [if_pos h]
      exact (List.Perm.cons b ih).trans (List.Perm.swap x b bs)
    · rw [if_neg h]

theorem mem_insertDescBy {α : Type} {key : α → ℚ} {x y : α} {l : List α} :
    y ∈ insertDescBy key x l ↔ y = x ∨ y ∈ l := by
  rw [(insertDescBy_perm key x l).mem_iff, List.mem_cons]

theorem pairwise_insertDescBy {α : Type} {key : α → ℚ} {x : α} {l : List α}
    (h : l.Pairwise (fun a b => key b ≤ key a)) :
    (insertDescBy key x l).Pairwise (fun a b => key b ≤ key a) := by
  induction l with
  | nil => simp [insertDescBy]
  | cons b bs ih =>
    rw [insertDescBy]
    obtain ⟨hb, hbs⟩ := List.pairwise_cons.mp h
    by_cases hx : key x < key b
    · rw [if_pos hx]
      refine List.pairwise_cons.mpr ⟨?_, ih hbs⟩
      intro y hy
      rcases mem_insertDescBy.mp hy with rfl | hy
      · exact le_of_lt hx
      · exact hb y hy
    · rw [if_neg hx]
      refine List.pairwise_cons.mpr ⟨?_, h⟩
      intro y hy
      rcases List.mem_cons.mp hy with rfl | hy
      · exact not_lt.mp hx
      · exact le_trans (hb y hy) (not_lt.mp hx)

theorem sortDescBy_perm {α : Type} (key : α → ℚ) (l : List α) :
    List.Perm (sortDescBy key l) l := by
  induction l with
  | nil => exact List.Perm.refl _
  | cons x xs ih =>
    exact (insertDescBy_perm key x (sortDescBy key xs)).trans (List.Perm.cons x ih)

theorem sortDescBy_pairwise {α : Type} (key : α → ℚ) (l : List α) :
    (sortDescBy key l).Pairwise (fun a b => key b ≤ key a) := by
  induction l with
  | nil => exact List.Pairwise.nil
  | cons x xs ih => exact pairwise_insertDescBy ih

theorem filter_insertDescBy {α : Type} (key : α → ℚ) (c : ℚ) (x : α) (l : List α) :
    (insertDescBy key x l).filter (fun a => decide (key a = c)) =
      if key x = c then x :: l.filter (fun a => decide (key a = c))
      else l.filter (fun a => decide (key a = c)) := by
  induction l with
  | nil =>
    by_cases h : key x = c <;> simp [insertDescBy, h]
  | cons b bs ih =>
    rw [insertDescBy]
    by_cases hx : key x < key b
    · rw [if_pos hx]
      by_cases hxc : key x = c <;> by_cases hbc : key b = c
      · exact absurd (hxc.trans hbc.symm) (ne_of_lt hx)
      · simp [List.filter_cons, ih, hxc, hbc]
      · simp [List.filter_cons, ih, hxc, hbc]
      · simp [List.filter_cons, ih, hxc, hbc]
    · rw [if_neg hx]
      by_cases hxc : key x = c <;> simp [List.filter_cons, hxc]

theorem filter_sortDescBy {α : Type} (key : α → ℚ) (c : ℚ) (l : List α) :
    (sortDescBy key l).filter (fun a => decide (key a = c)) =
      l.filter (fun a => decide (key a = c)) := by
  induction l with
  | nil => rfl
  | cons x xs ih =>
    rw [sortDescBy, filter_insertDescBy]
    by_cases hc : key x = c
    · rw [if_pos hc, ih, List.filter_cons_of_pos (by simpa using hc)]
    · rw [if_neg hc, ih, List.filter_cons_of_neg (by simpa using hc)]

/-- C7: for every input list and limit, getTopScoredSkills returns only
skills at or above the configured minimum-score threshold, sorted
descending by score with the relative order of equal-score entries
preserved from the (filtered) input, and of length at most the limit.
Stability is expressed by the equal-score subsequences of the output
being an initial segment of those of the filtered input. -/
theorem getTopScoredSkills_spec (cfg : ConstantsConfig) (skills : List ScoredSkill)
    (limit : ℕ) :
    (∀ s ∈ getTopScoredSkills cfg skills limit,
      cfg.scoring.minScoreThreshold ≤ ((s.score : ℤ) : ℚ)) ∧
    (getTopScoredSkills cfg skills limit).Pairwise (fun a b => b.score ≤ a.score) ∧
    (∀ c : ℚ, ∃ t,
      (skills.filter
          (fun s => cfg.scoring.minScoreThreshold ≤ ((s.score : ℤ) : ℚ))).filter
          (fun s => decide (((s.score : ℤ) : ℚ) = c)) =
        (getTopScoredSkills cfg skills limit).filter
          (fun s => decide (((s.score : ℤ) : ℚ) = c)) ++ t) ∧
    (getTopScoredSkills cfg skills limit).length ≤ limit := by
  refine ⟨?_, ?_, ?_, ?_⟩
  · intro s hs
    have h1 : s ∈ sortDescBy (fun s => ((s.score : ℤ) : ℚ))
        (skills.filter (fun s => cfg.scoring.minScoreThreshold ≤ ((s.score : ℤ) : ℚ))) :=
      (List.take_sublist _ _).mem hs
    have h2 := (sortDescBy_perm _ _).mem_iff.mp h1
    have h3 := (List.mem_filter.mp h2).2
    simpa using h3
  · refine List.Pairwise.imp ?_
      (List.Pairwise.sublist (List.take_sublist _ _) (sortDescBy_pairwise _ _))
    intro a b hab
    exact_mod_cast hab
  · intro c
    have h1 := filter_sortDescBy (fun s : ScoredSkill => ((s.score : ℤ) : ℚ)) c
      (skills.filter (fun s => cfg.scoring.minScoreThreshold ≤ ((s.score : ℤ) : ℚ)))
    rw [← List.take_append_drop limit
      (sortDescBy (fun s : ScoredSkill => ((s.score : ℤ) : ℚ))
        (skills.filter (fun s => cfg.scoring.minScoreThreshold ≤ ((s.score : ℤ) : ℚ)))),
      List.filter_append] at h1
    exact ⟨_, h1.symm⟩
  · exact List.length_take_le _ _

theorem collectRepoEvidence_types {cfg : ConstantsConfig} {terms : List Str}
    {data : CollectedGitHubData} :
    ∀ e ∈ collectRepoEvidence cfg terms data, e.type = EvidenceType.repo := by
  intro e he
  obtain ⟨r, _, rfl⟩ := List.mem_map.mp he
  rfl

theorem collectPREvidence_types {cfg : ConstantsConfig} {terms : List Str}
    {data : CollectedGitHubData} :
    ∀ e ∈ collectPREvidence cfg terms data, e.type = EvidenceType.pr := by
  intro e he
  obtain ⟨pr, _, rfl⟩ := List.mem_map.mp he
  rfl

theorem collectCommitEvidence_types {cfg : ConstantsConfig} {terms : List Str}
    {data : CollectedGitHubData} :
    ∀ e ∈ collectCommitEvidence cfg terms data, e.type = EvidenceType.commit := by
  intro e he
  obtain ⟨p, _, hp⟩ := List.mem_filterMap.mp he
  obtain ⟨repo, _, rfl⟩ := Option.map_eq_some'.mp hp
  rfl

theorem collectStarEvidence_types {cfg : ConstantsConfig} {terms : List Str}
    {data : CollectedGitHubData} :
    ∀ e ∈ collectStarEvidence cfg terms data, e.type = EvidenceType.starred := by
  intro e he
  obtain ⟨star, _, rfl⟩ := List.mem_map.mp he
  rfl

theorem pairwise_rank_of_const {l : List Evidence} {n : ℕ}
    (h : ∀ e ∈ l, evidenceRank e.type = n) :
    l.Pairwise (fun a b => evidenceRank a.type ≤ evidenceRank b.type) :=
  List.pairwise_of_forall_mem_list (fun a ha b hb => le_of_eq (by rw [h a ha, h b hb]))

/-- C8: for every term set and corpus, collectEvidence (with no explicit
cap, as the scoring engine calls it) returns at most maxPerSkill entries,
in the fixed priority order repository evidence, then merged-PR evidence,
then commit-activity evidence, then starred-repository evidence; the
repository sub-list is the rendering of a star-count-descending list of
matching repositories bounded by the repository limit, and each other
sub-list is bounded by its own configured limit. -/
theorem collectEvidence_spec (cfg : ConstantsConfig) (terms : List Str)
    (data : CollectedGitHubData) :
    (collectEvidence cfg terms data none).length ≤ cfg.evidence.maxPerSkill ∧
    (collectEvidence cfg terms data none).Pairwise
      (fun a b => evidenceRank a.type ≤ evidenceRank b.type) ∧
    (∃ rs : List RepoData,
      rs.Pairwise (fun a b => b.stars ≤ a.stars) ∧
      rs.length ≤ cfg.evidence.repoLimit ∧
      (∀ r ∈ rs, repoEvidencePred cfg terms r = true) ∧
      collectRepoEvidence cfg terms data = rs.map mkRepoEvidence) ∧
    (collectPREvidence cfg terms data).length ≤ cfg.evidence.prLimit ∧
    (collectCommitEvidence cfg terms data).length ≤ cfg.evidence.commitLimit ∧
    (collectStarEvidence cfg terms data).length ≤ cfg.evidence.starLimit := by
  refine ⟨List.length_take_le _ _, ?_, ?_, ?_, ?_, ?_⟩
  · refine List.Pairwise.sublist (List.take_sublist _ _) ?_
    rw [List.append_assoc, List.append_assoc, List.pairwise_append]
    refine ⟨pairwise_rank_of_const (fun e he => by rw [collectRepoEvidence_types e he]),
      ?_, ?_⟩
    · rw [List.pairwise_append]
      refine ⟨pairwise_rank_of_const (fun e he => by rw [collectPREvidence_types e he]),
        ?_, ?_⟩
      · rw [List.pairwise_append]
        refine ⟨pairwise_rank_of_const
            (fun e he => by rw [collectCommitEvidence_types e he]),
          pairwise_rank_of_const (fun e he => by rw [collectStarEvidence_types e he]),
          ?_⟩
        intro a ha b hb
        rw [collectCommitEvidence_types a ha, collectStarEvidence_types b hb]
        decide
      · intro a ha b hb
        rcases List.mem_append.mp hb with hb | hb
        · rw [collectPREvidence_types a ha, collectCommitEvidence_types b hb]
          decide
        · rw [collectPREvidence_types a ha, collectStarEvidence_types b hb]
          decide
    · intro a ha b hb
      rcases List.mem_append.mp hb with hb | hb
      · rw [collectRepoEvidence_types a ha, collectPREvidence_types b hb]
        decide
      rcases List.mem_append.mp hb with hb | hb
      · rw [collectRepoEvidence_types a ha, collectCommitEvidence_types b hb]
        decide
      · rw [collectRepoEvidence_types a ha, collectStarEvidence_types b hb]
        decide
  · refine ⟨(sortDescBy (fun r : RepoData => (r.stars : ℚ))
        (data.repos.filter (repoEvidencePred cfg terms))).take cfg.evidence.repoLimit,
      ?_, List.length_take_le _ _, ?_, ?_⟩
    · refine List.Pairwise.imp ?_
        (List.Pairwise.sublist (List.take_sublist _ _) (sortDescBy_pairwise _ _))
      intro a b hab
      exact_mod_cast hab
    · intro r hr
      have h1 := (List.take_sublist _ _).mem hr
      have h2 := (sortDescBy_perm _ _).mem_iff.mp h1
      exact (List.mem_filter.mp h2).2
    · rfl
  · calc (collectPREvidence cfg terms data).length
        = ((((data.pullRequests.filter (prEvidencePred terms)).filter
            (fun pr => pr.merged)).take cfg.evidence.prLimit)).length := by
          rw [collectPREvidence, List.length_map]
      _ ≤ cfg.evidence.prLimit := List.length_take_le _ _
  · calc (collectCommitEvidence cfg terms data).length
        ≤ ((sortDescBy (fun p => ((p.2 : ℕ) : ℚ))
            (data.commits.foldl (fun m c =>
              if commitEvidencePred cfg terms c then incrementNat m c.repo else m)
              [])).take cfg.evidence.commitLimit).length :=
          List.length_filterMap_le _ _
      _ ≤ cfg.evidence.commitLimit := List.length_take_le _ _
  · calc (collectStarEvidence cfg terms data).length
        = (((data.stars.filter (starEvidencePred cfg terms))).take
            cfg.evidence.starLimit).length := by
          rw [collectStarEvidence, List.length_map]
      _ ≤ cfg.evidence.starLimit := List.length_take_le _ _

theorem resolveTerm_none_of_search_empty {cfg : ConstantsConfig}
    {search : Str → List TopcoderSkill} {tech : Str}
    (h : search (expandTerm cfg.shortTermExpansions tech) = []) :
    resolveTerm cfg search tech = none := by
  unfold resolveTerm
  by_cases hl : (expandTerm cfg.shortTermExpansions tech).length < 2
  · rw [if_pos hl]
  · rw [if_neg hl, h]

/-- C9: a term for which the catalog search returns no result (the call
site of the skills API converts any remote failure to the empty result
list) contributes nothing: matchTechnologies on an input containing the
term equals matchTechnologies on the input with that term removed, no
error is raised and the rest of the batch is still processed. -/
theorem matchTechnologies_unreachable_term (cfg : ConstantsConfig)
    (search : Str → List TopcoderSkill) (pre post : List (Str × ℚ)) (tech : Str)
    (count : ℚ) (h : search (expandTerm cfg.shortTermExpansions tech) = []) :
    matchTechnologies cfg search (pre ++ (tech, count) :: post) =
      matchTechnologies cfg search (pre ++ post) := by
  have hstep : ∀ st, processTerm cfg search st (tech, count) = st := by
    intro st
    unfold processTerm
    rw [resolveTerm_none_of_search_empty h]
  unfold matchTechnologies
  rw [List.foldl_append, List.foldl_append, List.foldl_cons, hstep]

/-- Witness for C9: the term charlie is not known to the concrete catalog
search, so dropping it leaves the output unchanged. -/
theorem matchTechnologies_unreachable_term_witness :
    matchTechnologies sampleConfig searchCex
        ([("bravo".toList, 3)] ++ ("charlie".toList, 2) :: []) =
      matchTechnologies sampleConfig searchCex ([("bravo".toList, 3)] ++ []) :=
  matchTechnologies_unreachable_term sampleConfig searchCex _ _ _ _ (by decide)

/-- C4 counterexample: on a concrete run with two terms of equal weight
resolving to distinct skills, the output keeps first-match order b9
before a1, so equal raw scores are not ordered by catalog id ascending;
the claimed total order fails. -/
theorem matchTechnologies_tie_counterexample :
    matchTechnologies sampleConfig searchCex techCountsCex =
      [{ skill := skillBravo, matchedTerms := ["bravo".toList], rawScore := 3 },
       { skill := skillAlpha, matchedTerms := ["alpha".toList], rawScore := 3 }] ∧
    ¬ claimedTieOrder (matchTechnologies sampleConfig searchCex techCountsCex) := by
  have heval : matchTechnologies sampleConfig searchCex techCountsCex =
      [{ skill := skillBravo, matchedTerms := ["bravo".toList], rawScore := 3 },
       { skill := skillAlpha, matchedTerms := ["alpha".toList], rawScore := 3 }] := by
    decide
  refine ⟨heval, ?_⟩
  rw [claimedTieOrder, heval]
  intro hpw
  obtain ⟨hrel, _⟩ := List.pairwise_cons.mp hpw
  have hx := hrel _ (List.mem_singleton.mpr rfl)
  rcases hx with hlt | ⟨_, hids⟩
  · exact absurd hlt (lt_irrefl (3 : ℚ))
  · rcases hids with hstrlt | hideq
    · exact absurd hstrlt (by decide)
    · exact absurd hideq (by decide)

/-- C4 amended: the list returned by matchTechnologies is sorted
descending by rawScore, but equal raw scores keep the first-match
(insertion) order of the accumulator rather than ascending catalog id:
the sort comparator reads only rawScore and the sort is stable. -/
theorem matchTechnologies_sorted (cfg : ConstantsConfig)
    (search : Str → List TopcoderSkill) (tc : List (Str × ℚ)) :
    (matchTechnologies cfg search tc).Pairwise (fun a b => b.rawScore ≤ a.rawScore) ∧
    ∀ c : ℚ,
      (matchTechnologies cfg search tc).filter
          (fun m : MatchedSkill => decide (m.rawScore = c)) =
        ((tc.foldl (processTerm cfg search) []).map
          (fun e =>
            ({ skill := e.skill, matchedTerms := e.terms, rawScore := e.score } :
              MatchedSkill))).filter
          (fun m : MatchedSkill => decide (m.rawScore = c)) := by
  constructor
  · exact sortDescBy_pairwise (fun m : MatchedSkill => m.rawScore) _
  · intro c
    exact filter_sortDescBy (fun m : MatchedSkill => m.rawScore) c _

theorem contributions_append (cfg : ConstantsConfig) (search : Str → List TopcoderSkill)
    (processed : List (Str × ℚ)) (p : Str × ℚ) (id : Str) :
    contributions cfg search (processed ++ [p]) id =
      contributions cfg search processed id ++
        (if resolvedId cfg search p.1 = some id then [p] else []) := by
  unfold contributions
  rw [List.filter_append]
  congr 1
  by_cases h : resolvedId cfg search p.1 = some id
  · rw [if_pos h]; simp [h]
  · rw [if_neg h]; simp [h]

theorem dedupFirst_append_singleton {α : Type} [DecidableEq α] (l : List α) (t : α) :
    dedupFirst (l ++ [t]) =
      if t ∈ dedupFirst l then dedupFirst l else dedupFirst l ++ [t] := by
  unfold dedupFirst
  rw [List.foldl_append]
  rfl

theorem updateAcc_of_not_mem {st : List SkillAcc} {best : TopcoderSkill}
    {tech : Str} {count : ℚ}
    (h : st.filter (fun e => decide (e.skill.id = best.id)) = []) :
    updateAcc st best tech count = st ++ [⟨best, count, [tech]⟩] := by
  induction st with
  | nil => rfl
  | cons e es ih =>
    by_cases hid : e.skill.id = best.id
    · rw [List.filter_cons_of_pos (by simpa using hid)] at h
      cases h
    · rw [List.filter_cons_of_neg (by simpa using hid)] at h
      rw [updateAcc, if_neg hid, ih h]
      rfl

theorem filter_updateAcc_ne {st : List SkillAcc} {best : TopcoderSkill}
    {tech : Str} {count : ℚ} {id : Str} (h : id ≠ best.id) :
    (updateAcc st best tech count).filter (fun e => decide (e.skill.id = id)) =
      st.filter (fun e => decide (e.skill.id = id)) := by
  induction st with
  | nil =>
    have hbid : ¬(best.id = id) := fun hb => h hb.symm
    simp [updateAcc, hbid]
  | cons e es ih =>
    rw [updateAcc]
    by_cases hid : e.skill.id = best.id
    · rw [if_pos hid]
      have h1 : ¬(e.skill.id = id) := by rw [hid]; exact fun hb => h hb.symm
      rw [List.filter_cons_of_neg (by simpa using h1),
        List.filter_cons_of_neg (by simpa using h1)]
    · rw [if_neg hid]
      by_cases h2 : e.skill.id = id
      · rw [List.filter_cons_of_pos (by simpa using h2),
          List.filter_cons_of_pos (by simpa using h2), ih]
      · rw [List.filter_cons_of_neg (by simpa using h2),
          List.filter_cons_of_neg (by simpa using h2), ih]

theorem filter_updateAcc_eq {st : List SkillAcc} {best : TopcoderSkill}
    {tech : Str} {count : ℚ} {e0 : SkillAcc}
    (h : st.filter (fun e => decide (e.skill.id = best.id)) = [e0]) :
    (updateAcc st best tech count).filter (fun e => decide (e.skill.id = best.id)) =
      [{ e0 with
          score := e0.score + count,
          terms := if tech ∈ e0.terms then e0.terms else e0.terms ++ [tech] }] := by
  induction st with
  | nil => cases h
  | cons e es ih =>
    by_cases hid : e.skill.id = best.id
    · rw [List.filter_cons_of_pos (by simpa using hid)] at h
      obtain ⟨rfl, hes⟩ : e = e0 ∧ es.filter (fun e => decide (e.skill.id = best.id)) = [] := by
        have h1 := List.cons.inj h
        exact ⟨h1.1, h1.2⟩
      rw [updateAcc, if_pos hid, List.filter_cons_of_pos (by simpa using hid), hes]
    · rw [List.filter_cons_of_neg (by simpa using hid)] at h
      rw [updateAcc, if_neg hid, List.filter_cons_of_neg (by simpa using hid)]
      exact ih h

theorem accInv_step {cfg : ConstantsConfig} {search : Str → List TopcoderSkill}
    {processed : List (Str × ℚ)} {st : List SkillAcc}
    (h : AccInv cfg search processed st) (p : Str × ℚ) :
    AccInv cfg search (processed ++ [p]) (processTerm cfg search st p) := by
  intro id
  cases hres : resolveTerm cfg search p.1 with
  | none =>
    have hre : resolvedId cfg search p.1 = none := by rw [resolvedId, hres]; rfl
    have hstep : processTerm cfg search st p = st := by
      unfold processTerm; rw [hres]
    have hc : contributions cfg search (processed ++ [p]) id =
        contributions cfg search processed id := by
      rw [contributions_append, if_neg (by rw [hre]; exact fun hcontra => by cases hcontra),
        List.append_nil]
    rw [hstep, hc]
    exact h id
  | some best =>
    have hre : resolvedId cfg search p.1 = some best.id := by rw [resolvedId, hres]; rfl
    have hstep : processTerm cfg search st p = updateAcc st best p.1 p.2 := by
      unfold processTerm; rw [hres]
    rw [hstep]
    by_cases hid : id = best.id
    · subst hid
      have hc : contributions cfg search (processed ++ [p]) best.id =
          contributions cfg search processed best.id ++ [p] := by
        rw [contributions_append, if_pos hre]
      rcases h best.id with ⟨hf, hcon⟩ | ⟨sk, hsk, hf, hcon⟩
      · right
        refine ⟨best, rfl, ?_, ?_⟩
        · rw [updateAcc_of_not_mem hf, List.filter_append, hf, hc, hcon]
          simp [dedupFirst]
        · rw [hc, hcon]
          simp
      · right
        refine ⟨sk, hsk, ?_, ?_⟩
        · rw [filter_updateAcc_eq hf, hc]
          simp [dedupFirst_append_singleton]
        · rw [hc]
          simp
    · have hc : contributions cfg search (processed ++ [p]) id =
          contributions cfg search processed id := by
        rw [contributions_append, if_neg ?_, List.append_nil]
        rw [hre]
        intro hcontra
        exact hid (Option.some.inj hcontra).symm
      rw [hc, filter_updateAcc_ne hid]
      exact h id

theorem accInv_foldl (cfg : ConstantsConfig) (search : Str → List TopcoderSkill) :
    ∀ (tc processed : List (Str × ℚ)) (st : List SkillAcc),
      AccInv cfg search processed st →
      AccInv cfg search (processed ++ tc) (tc.foldl (processTerm cfg search) st) := by
  intro tc
  induction tc with
  | nil =>
    intro processed st h
    simpa using h
  | cons p tc' ih =>
    intro processed st h
    have h2 := ih (processed ++ [p]) (processTerm cfg search st p) (accInv_step h p)
    rw [List.append_assoc] at h2
    simpa using h2

theorem matchTechnologies_accInv (cfg : ConstantsConfig)
    (search : Str → List TopcoderSkill) (tc : List (Str × ℚ)) :
    AccInv cfg search tc (tc.foldl (processTerm cfg search) []) := by
  have h0 : AccInv cfg search [] [] := fun id => Or.inl ⟨rfl, rfl⟩
  have h1 := accInv_foldl cfg search tc [] [] h0
  simpa using h1

/-- C5: the output of matchTechnologies contains at most one MatchedSkill
per distinct skill id; every entry carries as rawScore the sum of the
weights of all input terms resolving to its skill id (never an
overwrite), with the contributing raw terms recorded in matchedTerms in
first-occurrence order; and an id appears exactly when some input term
resolves to it. -/
theorem matchTechnologies_unique_per_id (cfg : ConstantsConfig)
    (search : Str → List TopcoderSkill) (tc : List (Str × ℚ)) :
    (∀ id : Str,
      ((matchTechnologies cfg search tc).filter
        (fun m => decide (m.skill.id = id))).length ≤ 1) ∧
    (∀ m ∈ matchTechnologies cfg search tc,
      m.rawScore = ((contributions cfg search tc m.skill.id).map (fun p => p.2)).sum ∧
      m.matchedTerms =
        dedupFirst ((contributions cfg search tc m.skill.id).map (fun p => p.1))) ∧
    (∀ id : Str,
      (∃ m ∈ matchTechnologies cfg search tc, m.skill.id = id) ↔
        contributions cfg search tc id ≠ []) := by
  have hinv := matchTechnologies_accInv cfg search tc
  have hperm : List.Perm (matchTechnologies cfg search tc)
      ((tc.foldl (processTerm cfg search) []).map
        (fun e =>
          ({ skill := e.skill, matchedTerms := e.terms, rawScore := e.score } :
            MatchedSkill))) :=
    sortDescBy_perm _ _
  refine ⟨?_, ?_, ?_⟩
  · intro id
    calc ((matchTechnologies cfg search tc).filter
          (fun m => decide (m.skill.id = id))).length
        = (((tc.foldl (processTerm cfg search) []).map
            (fun e =>
              ({ skill := e.skill, matchedTerms := e.terms, rawScore := e.score } :
                MatchedSkill))).filter
            (fun m => decide (m.skill.id = id))).length :=
          (List.Perm.filter _ hperm).length_eq
      _ = ((tc.foldl (processTerm cfg search) []).filter
            (fun e => decide (e.skill.id = id))).length := by
          rw [List.filter_map, List.length_map]
          congr 1
      _ ≤ 1 := by
          rcases hinv id with ⟨hf, _⟩ | ⟨sk, _, hf, _⟩ <;> rw [hf] <;> simp
  · intro m hm
    obtain ⟨e, he, rfl⟩ := List.mem_map.mp (hperm.mem_iff.mp hm)
    rcases hinv e.skill.id with ⟨hf, _⟩ | ⟨sk, hsk, hf, hcon⟩
    · exfalso
      have hmem : e ∈ (tc.foldl (processTerm cfg search) []).filter
          (fun x => decide (x.skill.id = e.skill.id)) :=
        List.mem_filter.mpr ⟨he, by simp⟩
      rw [hf] at hmem
      cases hmem
    · have hmem : e ∈ (tc.foldl (processTerm cfg search) []).filter
          (fun x => decide (x.skill.id = e.skill.id)) :=
        List.mem_filter.mpr ⟨he, by simp⟩
      rw [hf] at hmem
      have he0 := List.mem_singleton.mp hmem
      exact ⟨congrArg SkillAcc.score he0, congrArg SkillAcc.terms he0⟩
  · intro id
    constructor
    · rintro ⟨m, hm, hmid⟩
      obtain ⟨e, he, rfl⟩ := List.mem_map.mp (hperm.mem_iff.mp hm)
      rcases hinv id with ⟨hf, _⟩ | ⟨_, _, _, hcon⟩
      · exfalso
        have hmem : e ∈ (tc.foldl (processTerm cfg search) []).filter
            (fun x => decide (x.skill.id = id)) :=
          List.mem_filter.mpr ⟨he, decide_eq_true hmid⟩
        rw [hf] at hmem
        cases hmem
      · exact hcon
    · intro hcon
      rcases hinv id with ⟨_, hcon2⟩ | ⟨sk, hsk, hf, _⟩
      · exact absurd hcon2 hcon
      · have hmem : (⟨sk, ((contributions cfg search tc id).map (fun p => p.2)).sum,
            dedupFirst ((contributions cfg search tc id).map (fun p => p.1))⟩ :
              SkillAcc) ∈
            (tc.foldl (processTerm cfg search) []).filter
              (fun x => decide (x.skill.id = id)) := by
          rw [hf]
          exact List.mem_singleton.mpr rfl
        refine ⟨⟨sk, dedupFirst ((contributions cfg search tc id).map (fun p => p.1)),
            ((contributions cfg search tc id).map (fun p => p.2)).sum, none⟩,
          ?_, hsk⟩
        exact hperm.mem_iff.mpr (List.mem_map.mpr ⟨_, List.mem_of_mem_filter hmem, rfl⟩)

/-- Witness for C5: the second clause applied to the concrete entry for
the skill with id b9 in the sample run. -/
theorem matchTechnologies_unique_per_id_witness :
    ({ skill := skillBravo, matchedTerms := ["bravo".toList], rawScore := 3 } :
        MatchedSkill).rawScore =
      ((contributions sampleConfig searchCex techCountsCex
          ({ skill := skillBravo, matchedTerms := ["bravo".toList], rawScore := 3 } :
            MatchedSkill).skill.id).map (fun p => p.2)).sum ∧
    ({ skill := skillBravo, matchedTerms := ["bravo".toList], rawScore := 3 } :
        MatchedSkill).matchedTerms =
      dedupFirst ((contributions sampleConfig searchCex techCountsCex
          ({ skill := skillBravo, matchedTerms := ["bravo".toList], rawScore := 3 } :
            MatchedSkill).skill.id).map (fun p => p.1)) :=
  (matchTechnologies_unique_per_id sampleConfig searchCex techCountsCex).2.1 _ (by decide)

theorem round_nonneg_q {x : ℚ} (hx : 0 ≤ x) : 0 ≤ round x := by
  rw [round_eq]
  exact Int.floor_nonneg.mpr (by linarith)

theorem clampRound_nonneg {x : ℚ} (hx : 0 ≤ x) :
    (0 : ℚ) ≤ ((min (round x) 100 : ℤ) : ℚ) := by
  have h1 : (0 : ℤ) ≤ min (round x) 100 :=
    le_min (round_nonneg_q hx) (by norm_num)
  exact_mod_cast h1

theorem clampRound_le {x : ℚ} : ((min (round x) 100 : ℤ) : ℚ) ≤ 100 := by
  have h2 : min (round x) 100 ≤ (100 : ℤ) := min_le_right _ _
  exact_mod_cast h2


theorem calculateLanguageScore_nonneg (cfg : ConstantsConfig) (terms : List Str)
    (data : CollectedGitHubData) (maxRawScore totalRawScore rawScore : ℚ)
    (hmax : 1 ≤ maxRawScore) (hraw : 0 ≤ rawScore) :
    0 ≤ calculateLanguageScore cfg terms data maxRawScore totalRawScore rawScore := by
  unfold calculateLanguageScore
  refine clampRound_nonneg ?_
  have hm : (0 : ℚ) < maxRawScore := by linarith
  split_ifs <;> positivity

theorem calculateLanguageScore_le (cfg : ConstantsConfig) (terms : List Str)
    (data : CollectedGitHubData) (maxRawScore totalRawScore rawScore : ℚ) :
    calculateLanguageScore cfg terms data maxRawScore totalRawScore rawScore ≤ 100 := by
  unfold calculateLanguageScore
  exact clampRound_le

theorem calculateCommitScore_nonneg (cfg : ConstantsConfig) (terms : List Str)
    (data : CollectedGitHubData) : 0 ≤ calculateCommitScore cfg terms data := by
  unfold calculateCommitScore
  simp only []
  split_ifs with h1 h2
  · norm_num
  · norm_num
  · refine clampRound_nonneg ?_
    have hle : data.commits.countP (commitFileMatches cfg terms) ≤
        data.commits.countP (fun c =>
          commitFileMatches cfg terms c || commitMessageMatches terms c) :=
      List.countP_mono_left (fun x _ hx => by rw [hx]; rfl)
    have hlen : (0 : ℚ) < (data.commits.length : ℚ) := by
      have h3 := Nat.pos_of_ne_zero h1
      exact_mod_cast h3
    have hsub : (0 : ℚ) ≤ ((data.commits.countP (fun c =>
          commitFileMatches cfg terms c || commitMessageMatches terms c) : ℚ) -
        (data.commits.countP (commitFileMatches cfg terms) : ℚ)) :=
      sub_nonneg.mpr (by exact_mod_cast hle)
    have hA : (0 : ℚ) ≤
        (data.commits.countP (commitFileMatches cfg terms) : ℚ) /
          (data.commits.length : ℚ) * 60 := by positivity
    have hB : (0 : ℚ) ≤ ((data.commits.countP (fun c =>
          commitFileMatches cfg terms c || commitMessageMatches terms c) : ℚ) -
          (data.commits.countP (commitFileMatches cfg terms) : ℚ)) /
          (data.commits.length : ℚ) * 30 :=
      mul_nonneg (div_nonneg hsub (le_of_lt hlen)) (by norm_num)
    have hC : (0 : ℚ) ≤ min ((data.commits.countP (fun c =>
          commitFileMatches cfg terms c || commitMessageMatches terms c) : ℚ) / 5) 20 := by
      positivity
    linarith

theorem calculateCommitScore_le (cfg : ConstantsConfig) (terms : List Str)
    (data : CollectedGitHubData) : calculateCommitScore cfg terms data ≤ 100 := by
  unfold calculateCommitScore
  simp only []
  split_ifs <;> first | norm_num | exact clampRound_le

theorem calculatePRScore_nonneg (terms : List Str) (data : CollectedGitHubData) :
    0 ≤ calculatePRScore terms data := by
  unfold calculatePRScore
  simp only []
  split_ifs <;> first | (refine clampRound_nonneg ?_; positivity) | norm_num

theorem calculatePRScore_le (terms : List Str) (data : CollectedGitHubData) :
    calculatePRScore terms data ≤ 100 := by
  unfold calculatePRScore
  simp only []
  split_ifs <;> first | norm_num | exact clampRound_le

theorem calculateProjectQualityScore_nonneg (cfg : ConstantsConfig) (log10 : ℕ → ℚ)
    (terms : List Str) (data : CollectedGitHubData)
    (hlog : ∀ n : ℕ, 0 ≤ log10 (n + 1)) :
    0 ≤ calculateProjectQualityScore cfg log10 terms data := by
  unfold calculateProjectQualityScore
  simp only []
  split_ifs
  · norm_num
  · refine clampRound_nonneg ?_
    have hstar : (0 : ℚ) ≤ min (log10
        (((data.repos.filter (fun r => termsMatchRepo cfg terms (getRepoTerms r))).map
          (fun r => r.stars)).sum + 1) * 15) 25 :=
      le_min (mul_nonneg (hlog _) (by norm_num)) (by norm_num)
    have hfork : (0 : ℚ) ≤ min (log10
        (((data.repos.filter (fun r => termsMatchRepo cfg terms (getRepoTerms r))).map
          (fun r => r.forks)).sum + 1) * 10) 15 :=
      le_min (mul_nonneg (hlog _) (by norm_num)) (by norm_num)
    have hrepos : (0 : ℚ) ≤ min
        (((data.repos.filter (fun r => termsMatchRepo cfg terms (getRepoTerms r))).length :
          ℚ) * 10) 40 := by positivity
    have howned : (0 : ℚ) ≤ min
        (((data.repos.filter (fun r => termsMatchRepo cfg terms (getRepoTerms r))).countP
          (fun r => r.isOwner) : ℚ) * 5) 20 := by positivity
    linarith

theorem calculateProjectQualityScore_le (cfg : ConstantsConfig) (log10 : ℕ → ℚ)
    (terms : List Str) (data : CollectedGitHubData) :
    calculateProjectQualityScore cfg log10 terms data ≤ 100 := by
  unfold calculateProjectQualityScore
  simp only []
  split_ifs <;> first | norm_num | exact clampRound_le

theorem calculateRecencyScore_nonneg (cfg : ConstantsConfig) (now : ℤ)
    (terms : List Str) (data : CollectedGitHubData) :
    0 ≤ calculateRecencyScore cfg now terms data := by
  unfold calculateRecencyScore
  simp only []
  split_ifs <;> first | (refine clampRound_nonneg ?_; positivity) | norm_num

theorem calculateRecencyScore_le (cfg : ConstantsConfig) (now : ℤ)
    (terms : List Str) (data : CollectedGitHubData) :
    calculateRecencyScore cfg now terms data ≤ 100 := by
  unfold calculateRecencyScore
  simp only []
  split_ifs <;> first | norm_num | exact clampRound_le

/-- C1: for every matched skill scored by scoreSkill, under the documented
configuration shape (non-negative weights summing to 1, an integer base
score of at most 100, maximum score 100), a non-negative raw score and a
maximum raw score floored at 1 (as scoreSkills always passes), the
resulting score is an integer in [0, 100], equals
round(baseScore + weightedSum * (100 - baseScore) / 100) clamped above by
maxScore, and is at least baseScore — in particular whenever the skill
has at least one matched term. -/
theorem scoreSkill_spec (cfg : ConstantsConfig) (log10 : ℕ → ℚ) (now : ℤ)
    (m : MatchedSkill) (data : CollectedGitHubData) (maxRawScore totalRawScore : ℚ)
    (hw1 : 0 ≤ cfg.scoring.weights.language) (hw2 : 0 ≤ cfg.scoring.weights.commits)
    (hw3 : 0 ≤ cfg.scoring.weights.prs) (hw4 : 0 ≤ cfg.scoring.weights.projectQuality)
    (hw5 : 0 ≤ cfg.scoring.weights.recency)
    (hsum : cfg.scoring.weights.language + cfg.scoring.weights.commits +
      cfg.scoring.weights.prs + cfg.scoring.weights.projectQuality +
      cfg.scoring.weights.recency = 1)
    (b : ℕ) (hb : cfg.scoring.baseScore = (b : ℚ)) (hb100 : b ≤ 100)
    (hmaxsc : cfg.scoring.maxScore = 100)
    (hlog : ∀ n : ℕ, 0 ≤ log10 (n + 1))
    (hraw : 0 ≤ m.rawScore) (hmaxraw : 1 ≤ maxRawScore) :
    0 ≤ (scoreSkill cfg log10 now m data maxRawScore totalRawScore).score ∧
    (scoreSkill cfg log10 now m data maxRawScore totalRawScore).score ≤ 100 ∧
    (scoreSkill cfg log10 now m data maxRawScore totalRawScore).score =
      min (round (cfg.scoring.baseScore +
        weightedScoreOf cfg.scoring.weights
          (scoreSkill cfg log10 now m data maxRawScore totalRawScore).components *
          ((100 - cfg.scoring.baseScore) / 100)))
        cfg.scoring.maxScore ∧
    (m.matchedTerms ≠ [] →
      (b : ℤ) ≤ (scoreSkill cfg log10 now m data maxRawScore totalRawScore).score) := by
  have hformula : (scoreSkill cfg log10 now m data maxRawScore totalRawScore).score =
      min (round (cfg.scoring.baseScore +
        weightedScoreOf cfg.scoring.weights
          (scoreSkill cfg log10 now m data maxRawScore totalRawScore).components *
          ((100 - cfg.scoring.baseScore) / 100)))
        cfg.scoring.maxScore := rfl
  have hcomp : (scoreSkill cfg log10 now m data maxRawScore totalRawScore).components =
      ⟨calculateLanguageScore cfg
          (dedupFirst (lowerStr m.skill.name :: m.matchedTerms.map lowerStr)) data
          maxRawScore totalRawScore m.rawScore,
        calculateCommitScore cfg
          (dedupFirst (lowerStr m.skill.name :: m.matchedTerms.map lowerStr)) data,
        calculatePRScore
          (dedupFirst (lowerStr m.skill.name :: m.matchedTerms.map lowerStr)) data,
        calculateProjectQualityScore cfg log10
          (dedupFirst (lowerStr m.skill.name :: m.matchedTerms.map lowerStr)) data,
        calculateRecencyScore cfg now
          (dedupFirst (lowerStr m.skill.name :: m.matchedTerms.map lowerStr)) data⟩ := rfl
  have hws : 0 ≤ weightedScoreOf cfg.scoring.weights
      (scoreSkill cfg log10 now m data maxRawScore totalRawScore).components := by
    rw [hcomp]
    unfold weightedScoreOf
    have l1 := calculateLanguageScore_nonneg cfg
      (dedupFirst (lowerStr m.skill.name :: m.matchedTerms.map lowerStr)) data
      maxRawScore totalRawScore m.rawScore hmaxraw hraw
    have l2 := calculateCommitScore_nonneg cfg
      (dedupFirst (lowerStr m.skill.name :: m.matchedTerms.map lowerStr)) data
    have l3 := calculatePRScore_nonneg
      (dedupFirst (lowerStr m.skill.name :: m.matchedTerms.map lowerStr)) data
    have l4 := calculateProjectQualityScore_nonneg cfg log10
      (dedupFirst (lowerStr m.skill.name :: m.matchedTerms.map lowerStr)) data hlog
    have l5 := calculateRecencyScore_nonneg cfg now
      (dedupFirst (lowerStr m.skill.name :: m.matchedTerms.map lowerStr)) data
    exact add_nonneg (add_nonneg (add_nonneg (add_nonneg
      (mul_nonneg l1 hw1) (mul_nonneg l2 hw2)) (mul_nonneg l3 hw3))
      (mul_nonneg l4 hw4)) (mul_nonneg l5 hw5)
  have hb0 : (0 : ℚ) ≤ cfg.scoring.baseScore := by rw [hb]; positivity
  have hb100q : cfg.scoring.baseScore ≤ 100 := by
    rw [hb]
    exact_mod_cast hb100
  have hdelta : 0 ≤ weightedScoreOf cfg.scoring.weights
      (scoreSkill cfg log10 now m data maxRawScore totalRawScore).components *
      ((100 - cfg.scoring.baseScore) / 100) :=
    mul_nonneg hws (div_nonneg (by linarith) (by norm_num))
  refine ⟨?_, ?_, hformula, ?_⟩
  · rw [hformula, hmaxsc]
    exact le_min (round_nonneg_q (by linarith)) (by norm_num)
  · rw [hformula, hmaxsc]
    exact min_le_right _ _
  · intro _
    rw [hformula, hmaxsc, hb]
    have hdelta2 : 0 ≤ weightedScoreOf cfg.scoring.weights
        (scoreSkill cfg log10 now m data maxRawScore totalRawScore).components *
        ((100 - (b : ℚ)) / 100) := by
      rw [← hb]
      exact hdelta
    rw [round_nat_add]
    exact le_min (le_add_of_nonneg_right (round_nonneg_q hdelta2)) (by exact_mod_cast hb100)

/-- Witness for C1: the bound theorem applied to the sample configuration,
a trivial logarithm, an empty corpus and a matched skill with raw score 5. -/
theorem scoreSkill_spec_witness :
    0 ≤ (scoreSkill sampleConfig (fun _ => 0) 0
      { skill := skillBravo, matchedTerms := ["bravo".toList], rawScore := 5 }
      ⟨[], [], [], []⟩ 5 5).score ∧
    (scoreSkill sampleConfig (fun _ => 0) 0
      { skill := skillBravo, matchedTerms := ["bravo".toList], rawScore := 5 }
      ⟨[], [], [], []⟩ 5 5).score ≤ 100 ∧
    (scoreSkill sampleConfig (fun _ => 0) 0
        { skill := skillBravo, matchedTerms := ["bravo".toList], rawScore := 5 }
        ⟨[], [], [], []⟩ 5 5).score =
      min (round (sampleConfig.scoring.baseScore +
        weightedScoreOf sampleConfig.scoring.weights
          (scoreSkill sampleConfig (fun _ => 0) 0
            { skill := skillBravo, matchedTerms := ["bravo".toList], rawScore := 5 }
            ⟨[], [], [], []⟩ 5 5).components *
          ((100 - sampleConfig.scoring.baseScore) / 100)))
        sampleConfig.scoring.maxScore ∧
    ((({ skill := skillBravo, matchedTerms := ["bravo".toList], rawScore := 5 } :
        MatchedSkill)).matchedTerms ≠ [] →
      ((15 : ℕ) : ℤ) ≤ (scoreSkill sampleConfig (fun _ => 0) 0
        { skill := skillBravo, matchedTerms := ["bravo".toList], rawScore := 5 }
        ⟨[], [], [], []⟩ 5 5).score) :=
  scoreSkill_spec sampleConfig (fun _ => 0) 0
    { skill := skillBravo, matchedTerms := ["bravo".toList], rawScore := 5 }
    ⟨[], [], [], []⟩ 5 5
    (by norm_num [sampleConfig]) (by norm_num [sampleConfig]) (by norm_num [sampleConfig])
    (by norm_num [sampleConfig]) (by norm_num [sampleConfig]) (by norm_num [sampleConfig])
    15 (by norm_num [sampleConfig]) (by norm_num) (by norm_num [sampleConfig])
    (fun n => le_refl 0) (by norm_num) (by norm_num)

theorem round_eq_of_bounds {q : ℚ} {n : ℤ} (h1 : (n : ℚ) ≤ q + 1/2)
    (h2 : q + 1/2 < n + 1) : round q = n := by
  rw [round_eq]
  exact Int.floor_eq_iff.mpr ⟨h1, by push_cast; linarith⟩

theorem round_507_10 : round ((507 : ℚ)/10) = 51 :=
  round_eq_of_bounds (by norm_num) (by norm_num)

theorem dedupFirst_bravo :
    dedupFirst (lowerStr ("bravo".toList) :: List.map lowerStr ["bravo".toList]) =
      ["bravo".toList] := by decide

/-- C2 counterexample: a matched skill with raw score 5 over an empty
corpus (so its corpus evidence is empty) receives score 51, not the
configured baseScore 15: the rank-based language component and the no-PR
baseline contribute on top of the base score. -/
theorem scoreSkills_base_score_counterexample :
    ((scoreSkills sampleConfig (fun _ => 0) 0
        [{ skill := skillBravo, matchedTerms := ["bravo".toList], rawScore := 5 }]
        ⟨[], [], [], []⟩).map (fun s => s.score)) = [51] ∧
    ((scoreSkills sampleConfig (fun _ => 0) 0
        [{ skill := skillBravo, matchedTerms := ["bravo".toList], rawScore := 5 }]
        ⟨[], [], [], []⟩).map (fun s => s.evidence)) = [[]] ∧
    sampleConfig.scoring.baseScore = 15 ∧ (51 : ℤ) ≠ 15 := by
  refine ⟨?_, ?_, rfl, by norm_num⟩
  · simp only [scoreSkills, scoreSkill, List.map_cons, List.map_nil, List.sum_cons,
      List.sum_nil, List.foldl_cons, List.foldl_nil]
    norm_num [sampleConfig, skillBravo, dedupFirst_bravo, calculateLanguageScore,
      calculateCommitScore, calculatePRScore, calculateProjectQualityScore,
      calculateRecencyScore, weightedScoreOf, min_def, round_ofNat, round_507_10]
  · simp only [scoreSkills, scoreSkill, List.map_cons, List.map_nil, List.sum_cons,
      List.sum_nil, List.foldl_cons, List.foldl_nil]
    simp [collectEvidence, collectRepoEvidence, collectPREvidence, collectCommitEvidence,
      collectStarEvidence, sortDescBy, sampleConfig]

/-- C2 amended: for a matched skill none of whose terms match any
repository, commit, pull request or star of the corpus (both for the
scoring matchers and the evidence collectors), the commit, project
quality and recency components are 0, the PR component is the fixed
baseline 20, the evidence list is empty, and the final score is
round(baseScore + (languageScore * w_language + 20 * w_prs) *
(100 - baseScore) / 100) capped at maxScore — at least baseScore, but in
general strictly above it (the claimed value of exactly baseScore is
refuted by the counterexample); such a skill is excluded by
getTopScoredSkills whenever its score (not its baseScore) is below the
configured minimum-score threshold. -/
theorem scoreSkill_empty_evidence (cfg : ConstantsConfig) (log10 : ℕ → ℚ) (now : ℤ)
    (m : MatchedSkill) (data : CollectedGitHubData) (maxRawScore totalRawScore : ℚ)
    (ts : List Str)
    (hts : ts = dedupFirst (lowerStr m.skill.name :: m.matchedTerms.map lowerStr))
    (hw1 : 0 ≤ cfg.scoring.weights.language) (hw3 : 0 ≤ cfg.scoring.weights.prs)
    (b : ℕ) (hb : cfg.scoring.baseScore = (b : ℚ)) (hb100 : b ≤ 100)
    (hmaxsc : cfg.scoring.maxScore = 100)
    (hraw : 0 ≤ m.rawScore) (hmaxraw : 1 ≤ maxRawScore)
    (hrep : ∀ r ∈ data.repos, termsMatchRepo cfg ts (getRepoTerms r) = false)
    (hcomF : ∀ c ∈ data.commits, commitFileMatches cfg ts c = false)
    (hcomM : ∀ c ∈ data.commits, commitMessageMatches ts c = false)
    (hpr : ∀ pr ∈ data.pullRequests, prTextMatches ts pr = false)
    (hrepE : ∀ r ∈ data.repos, repoEvidencePred cfg ts r = false)
    (hcomE : ∀ c ∈ data.commits, commitEvidencePred cfg ts c = false)
    (hprE : ∀ pr ∈ data.pullRequests, prEvidencePred ts pr = false)
    (hstarE : ∀ st ∈ data.stars, starEvidencePred cfg ts st = false) :
    (scoreSkill cfg log10 now m data maxRawScore totalRawScore).components.commitScore
        = 0 ∧
    (scoreSkill cfg log10 now m data maxRawScore
        totalRawScore).components.projectQualityScore = 0 ∧
    (scoreSkill cfg log10 now m data maxRawScore totalRawScore).components.recencyScore
        = 0 ∧
    (scoreSkill cfg log10 now m data maxRawScore totalRawScore).components.prScore
        = 20 ∧
    (scoreSkill cfg log10 now m data maxRawScore totalRawScore).evidence = [] ∧
    (scoreSkill cfg log10 now m data maxRawScore totalRawScore).score =
      min (round (cfg.scoring.baseScore +
        ((scoreSkill cfg log10 now m data maxRawScore
            totalRawScore).components.languageScore * cfg.scoring.weights.language +
          20 * cfg.scoring.weights.prs) * ((100 - cfg.scoring.baseScore) / 100)))
        cfg.scoring.maxScore ∧
    (b : ℤ) ≤ (scoreSkill cfg log10 now m data maxRawScore totalRawScore).score ∧
    (∀ (skills : List ScoredSkill) (limit : ℕ),
      (((scoreSkill cfg log10 now m data maxRawScore totalRawScore).score : ℤ) : ℚ) <
          cfg.scoring.minScoreThreshold →
      scoreSkill cfg log10 now m data maxRawScore totalRawScore ∉
        getTopScoredSkills cfg skills limit) := by
  subst hts
  have hcomp : (scoreSkill cfg log10 now m data maxRawScore totalRawScore).components =
      ⟨calculateLanguageScore cfg
          (dedupFirst (lowerStr m.skill.name :: m.matchedTerms.map lowerStr)) data
          maxRawScore totalRawScore m.rawScore,
        calculateCommitScore cfg
          (dedupFirst (lowerStr m.skill.name :: m.matchedTerms.map lowerStr)) data,
        calculatePRScore
          (dedupFirst (lowerStr m.skill.name :: m.matchedTerms.map lowerStr)) data,
        calculateProjectQualityScore cfg log10
          (dedupFirst (lowerStr m.skill.name :: m.matchedTerms.map lowerStr)) data,
        calculateRecencyScore cfg now
          (dedupFirst (lowerStr m.skill.name :: m.matchedTerms.map lowerStr)) data⟩ :=
    rfl
  have hformula : (scoreSkill cfg log10 now m data maxRawScore totalRawScore).score =
      min (round (cfg.scoring.baseScore +
        weightedScoreOf cfg.scoring.weights
          (scoreSkill cfg log10 now m data maxRawScore totalRawScore).components *
          ((100 - cfg.scoring.baseScore) / 100)))
        cfg.scoring.maxScore := rfl
  have hcommit0 : calculateCommitScore cfg
      (dedupFirst (lowerStr m.skill.name :: m.matchedTerms.map lowerStr)) data = 0 := by
    unfold calculateCommitScore
    simp only []
    split_ifs with h1 h2
    · rfl
    · rfl
    · exact absurd (List.countP_eq_zero.mpr (fun c hc => by
        rw [hcomF c hc, hcomM c hc]; decide)) h2
  have hfilter : data.repos.filter (fun r => termsMatchRepo cfg
      (dedupFirst (lowerStr m.skill.name :: m.matchedTerms.map lowerStr))
      (getRepoTerms r)) = [] :=
    List.filter_eq_nil_iff.mpr (fun r hr => by rw [hrep r hr]; decide)
  have hqual0 : calculateProjectQualityScore cfg log10
      (dedupFirst (lowerStr m.skill.name :: m.matchedTerms.map lowerStr)) data = 0 := by
    unfold calculateProjectQualityScore
    simp only []
    rw [hfilter]
    simp
  have hrec0 : calculateRecencyScore cfg now
      (dedupFirst (lowerStr m.skill.name :: m.matchedTerms.map lowerStr)) data = 0 := by
    unfold calculateRecencyScore
    simp only []
    rw [hfilter]
    simp
  have hpr20 : calculatePRScore
      (dedupFirst (lowerStr m.skill.name :: m.matchedTerms.map lowerStr)) data = 20 := by
    unfold calculatePRScore
    simp only []
    split_ifs with h1 h2 h3 <;>
      first
        | rfl
        | exact absurd (List.countP_eq_zero.mpr (fun pr hp => by
            rw [hpr pr hp]; decide)) h2
  have hcF : (scoreSkill cfg log10 now m data maxRawScore
      totalRawScore).components.commitScore = 0 := by rw [hcomp]; exact hcommit0
  have hcQ : (scoreSkill cfg log10 now m data maxRawScore
      totalRawScore).components.projectQualityScore = 0 := by rw [hcomp]; exact hqual0
  have hcR : (scoreSkill cfg log10 now m data maxRawScore
      totalRawScore).components.recencyScore = 0 := by rw [hcomp]; exact hrec0
  have hcP : (scoreSkill cfg log10 now m data maxRawScore
      totalRawScore).components.prScore = 20 := by rw [hcomp]; exact hpr20
  have hcL : (scoreSkill cfg log10 now m data maxRawScore
      totalRawScore).components.languageScore =
      calculateLanguageScore cfg
        (dedupFirst (lowerStr m.skill.name :: m.matchedTerms.map lowerStr)) data
        maxRawScore totalRawScore m.rawScore := by rw [hcomp]
  have hwse : weightedScoreOf cfg.scoring.weights
      (scoreSkill cfg log10 now m data maxRawScore totalRawScore).components =
      (scoreSkill cfg log10 now m data maxRawScore
        totalRawScore).components.languageScore * cfg.scoring.weights.language +
        20 * cfg.scoring.weights.prs := by
    unfold weightedScoreOf
    rw [hcF, hcQ, hcR, hcP]
    ring
  have hevid : (scoreSkill cfg log10 now m data maxRawScore totalRawScore).evidence
      = [] := by
    have h1 : (scoreSkill cfg log10 now m data maxRawScore totalRawScore).evidence =
        collectEvidence cfg
          (dedupFirst (lowerStr m.skill.name :: m.matchedTerms.map lowerStr)) data
          none := rfl
    have hfR : data.repos.filter (repoEvidencePred cfg
        (dedupFirst (lowerStr m.skill.name :: m.matchedTerms.map lowerStr))) = [] :=
      List.filter_eq_nil_iff.mpr (fun r hr => by rw [hrepE r hr]; decide)
    have hfP : data.pullRequests.filter (prEvidencePred
        (dedupFirst (lowerStr m.skill.name :: m.matchedTerms.map lowerStr))) = [] :=
      List.filter_eq_nil_iff.mpr (fun pr hp => by rw [hprE pr hp]; decide)
    have hfS : data.stars.filter (starEvidencePred cfg
        (dedupFirst (lowerStr m.skill.name :: m.matchedTerms.map lowerStr))) = [] :=
      List.filter_eq_nil_iff.mpr (fun st hs => by rw [hstarE st hs]; decide)
    have hfC : ∀ (l : List CommitData) (m0 : List (Str × ℕ)),
        (∀ c ∈ l, commitEvidencePred cfg
          (dedupFirst (lowerStr m.skill.name :: m.matchedTerms.map lowerStr)) c =
            false) →
        l.foldl (fun m1 c => if commitEvidencePred cfg
          (dedupFirst (lowerStr m.skill.name :: m.matchedTerms.map lowerStr)) c then
            incrementNat m1 c.repo else m1) m0 = m0 := by
      intro l
      induction l with
      | nil => intro m0 _; rfl
      | cons c cs ih =>
        intro m0 hall
        rw [List.foldl_cons, if_neg (by rw [hall c (List.mem_cons_self c cs)]; decide)]
        exact ih m0 (fun x hx => hall x (List.mem_cons_of_mem c hx))
    rw [h1]
    unfold collectEvidence collectRepoEvidence collectPREvidence collectCommitEvidence
      collectStarEvidence
    rw [hfR, hfP, hfS, hfC data.commits [] (fun c hc => hcomE c hc)]
    simp [sortDescBy]
  have hlangNN : 0 ≤ (scoreSkill cfg log10 now m data maxRawScore
      totalRawScore).components.languageScore := by
    rw [hcL]
    exact calculateLanguageScore_nonneg cfg _ data maxRawScore totalRawScore m.rawScore
      hmaxraw hraw
  have hws : 0 ≤ weightedScoreOf cfg.scoring.weights
      (scoreSkill cfg log10 now m data maxRawScore totalRawScore).components := by
    rw [hwse]
    exact add_nonneg (mul_nonneg hlangNN hw1) (mul_nonneg (by norm_num) hw3)
  have hb100q : cfg.scoring.baseScore ≤ 100 := by
    rw [hb]
    exact_mod_cast hb100
  have hdelta : 0 ≤ weightedScoreOf cfg.scoring.weights
      (scoreSkill cfg log10 now m data maxRawScore totalRawScore).components *
      ((100 - cfg.scoring.baseScore) / 100) :=
    mul_nonneg hws (div_nonneg (by linarith) (by norm_num))
  refine ⟨hcF, hcQ, hcR, hcP, hevid, ?_, ?_, ?_⟩
  · rw [hformula, hwse]
  · rw [hformula, hmaxsc, hb]
    have hdelta2 : 0 ≤ weightedScoreOf cfg.scoring.weights
        (scoreSkill cfg log10 now m data maxRawScore totalRawScore).components *
        ((100 - (b : ℚ)) / 100) := by
      rw [← hb]
      exact hdelta
    rw [round_nat_add]
    exact le_min (le_add_of_nonneg_right (round_nonneg_q hdelta2)) (by exact_mod_cast hb100)
  · intro skills limit hlt hmem
    have h1 : scoreSkill cfg log10 now m data maxRawScore totalRawScore ∈
        sortDescBy (fun s : ScoredSkill => ((s.score : ℤ) : ℚ))
          (skills.filter
            (fun s => cfg.scoring.minScoreThreshold ≤ ((s.score : ℤ) : ℚ))) :=
      (List.take_sublist _ _).mem hmem
    have h2 := (sortDescBy_perm _ _).mem_iff.mp h1
    have h3 := (List.mem_filter.mp h2).2
    have h4 : cfg.scoring.minScoreThreshold ≤
        (((scoreSkill cfg log10 now m data maxRawScore totalRawScore).score : ℤ) : ℚ) :=
      of_decide_eq_true h3
    linarith

/-- Witness for the amended C2: on the empty corpus every matching
hypothesis holds vacuously, and the commit component of the sample score
is 0. -/
theorem scoreSkill_empty_evidence_witness :
    (scoreSkill sampleConfig (fun _ => 0) 0
      { skill := skillBravo, matchedTerms := ["bravo".toList], rawScore := 5 }
      ⟨[], [], [], []⟩ 5 5).components.commitScore = 0 :=
  (scoreSkill_empty_evidence sampleConfig (fun _ => 0) 0
    { skill := skillBravo, matchedTerms := ["bravo".toList], rawScore := 5 }
    ⟨[], [], [], []⟩ 5 5 _ rfl
    (by norm_num [sampleConfig]) (by norm_num [sampleConfig])
    15 (by norm_num [sampleConfig]) (by norm_num) (by norm_num [sampleConfig])
    (by norm_num) (by norm_num)
    (fun r hr => absurd hr (List.not_mem_nil r))
    (fun c hc => absurd hc (List.not_mem_nil c))
    (fun c hc => absurd hc (List.not_mem_nil c))
    (fun pr hp => absurd hp (List.not_mem_nil pr))
    (fun r hr => absurd hr (List.not_mem_nil r))
    (fun c hc => absurd hc (List.not_mem_nil c))
    (fun pr hp => absurd hp (List.not_mem_nil pr))
    (fun st hs => absurd hs (List.not_mem_nil st))).1

theorem lookupWeight_increment (m : List (Str × ℚ)) (t : Str) (c : ℚ) (s : Str) :
    lookupWeight (increment m t c) s =
      lookupWeight m s + (if t = s then c else 0) := by
  induction m with
  | nil => by_cases h : t = s <;> simp [increment, lookupWeight, h]
  | cons p ps ih =>
    by_cases h : p.1 = t
    · by_cases h2 : p.1 = s
      · have ht : t = s := h.symm.trans h2
        simp [increment, lookupWeight, h, h2, ht]
      · have ht : ¬ t = s := fun e => h2 (h.trans e)
        simp [increment, lookupWeight, h, h2, ht]
    · by_cases h2 : p.1 = s
      · have ht : ¬ t = s := fun e => h (h2.trans e.symm)
        have hst : ¬ s = t := fun e => ht e.symm
        simp [increment, lookupWeight, h, h2, ht, hst]
      · simp [increment, lookupWeight, h, h2, ih]

theorem lookupWeight_foldl_inc (ops : List (Str × ℚ)) (m : List (Str × ℚ)) (s : Str) :
    lookupWeight (ops.foldl (fun acc p => increment acc p.1 p.2) m) s =
      lookupWeight m s + (ops.map (fun p => if p.1 = s then p.2 else 0)).sum := by
  induction ops generalizing m with
  | nil => simp
  | cons p ps ih =>
    rw [List.foldl_cons, ih, lookupWeight_increment, List.map_cons, List.sum_cons,
      add_assoc]

theorem lookupWeight_foldl_applyIncs {α : Type} (f : α → List (Str × ℚ))
    (l : List α) (m : List (Str × ℚ)) (s : Str) :
    lookupWeight (l.foldl (fun acc x => applyIncs acc (f x)) m) s =
      lookupWeight m s +
        (l.map (fun x => ((f x).map (fun p => if p.1 = s then p.2 else 0)).sum)).sum := by
  induction l generalizing m with
  | nil => simp
  | cons x xs ih =>
    rw [List.foldl_cons, ih]
    show lookupWeight (applyIncs m (f x)) s + _ = _
    rw [applyIncs, lookupWeight_foldl_inc, List.map_cons, List.sum_cons, add_assoc]

theorem extractAllTechnologies_lookup (specialFiles : List (Str × Str))
    (extractCommit : Str → List Str → List Str)
    (extractPR : Str → Option Str → Option (List Str) → List Str)
    (data : CollectedGitHubData) (skillNames : Option (List Str)) (t : Str) :
    lookupWeight
        (extractAllTechnologies specialFiles extractCommit extractPR data skillNames) t =
      (data.repos.map (fun r =>
        ((repoIncs specialFiles skillNames r).map
          (fun p => if p.1 = t then p.2 else 0)).sum)).sum +
      (data.commits.map (fun c =>
        ((commitIncs extractCommit c).map
          (fun p => if p.1 = t then p.2 else 0)).sum)).sum +
      (data.pullRequests.map (fun pr =>
        ((prIncs extractPR skillNames pr).map
          (fun p => if p.1 = t then p.2 else 0)).sum)).sum +
      (data.stars.map (fun st =>
        ((starIncs st).map (fun p => if p.1 = t then p.2 else 0)).sum)).sum := by
  unfold extractAllTechnologies
  simp only []
  rw [lookupWeight_foldl_applyIncs starIncs,
    lookupWeight_foldl_applyIncs (prIncs extractPR skillNames),
    lookupWeight_foldl_applyIncs (commitIncs extractCommit),
    lookupWeight_foldl_applyIncs (repoIncs specialFiles skillNames)]
  show 0 + _ + _ + _ + _ = _
  ring

/-- C3: the weighted term table built by extractAllTechnologies is
order-independent: permuting the repositories, commits, pull requests and
starred repositories of the corpus leaves every term's accumulated weight
unchanged, because each item contributes an additive quantity and addition
is commutative. -/
theorem extractAllTechnologies_order_invariant
    (specialFiles : List (Str × Str))
    (extractCommit : Str → List Str → List Str)
    (extractPR : Str → Option Str → Option (List Str) → List Str)
    (data data' : CollectedGitHubData) (skillNames : Option (List Str))
    (h1 : data.repos.Perm data'.repos) (h2 : data.commits.Perm data'.commits)
    (h3 : data.pullRequests.Perm data'.pullRequests)
    (h4 : data.stars.Perm data'.stars) (t : Str) :
    lookupWeight
        (extractAllTechnologies specialFiles extractCommit extractPR data skillNames) t =
      lookupWeight
        (extractAllTechnologies specialFiles extractCommit extractPR data' skillNames)
        t := by
  rw [extractAllTechnologies_lookup, extractAllTechnologies_lookup,
    List.Perm.sum_eq (h1.map _), List.Perm.sum_eq (h2.map _),
    List.Perm.sum_eq (h3.map _), List.Perm.sum_eq (h4.map _)]

/-- Witness for C3: swapping the two stars of the sample corpus leaves the
weight accumulated for "ruby" unchanged. -/
theorem extractAllTechnologies_order_invariant_witness :
    lookupWeight
        (extractAllTechnologies [] (fun _ _ => []) (fun _ _ _ => []) corpusXY none)
        ("ruby".toList) =
      lookupWeight
        (extractAllTechnologies [] (fun _ _ => []) (fun _ _ _ => []) corpusYX none)
        ("ruby".toList) :=
  extractAllTechnologies_order_invariant [] (fun _ _ => []) (fun _ _ _ => [])
    corpusXY corpusYX none (by decide) (by decide) (by decide) (by decide)
    ("ruby".toList)
